import Mathlib

set_option maxHeartbeats 1000000

/-!
# Verification of `src/algo/wfc_color.rs` (Wave Function Collapse graph coloring)

Shallow embedding of the Rust source.  The graph is modelled with dense
identity indexing: the vertices are `0, 1, ..., n-1`, with
`node_bound() = node_count() = n`, `from_index i = i`, and `neighbors v`
an explicit list (the enumeration order of the adjacency iterator), as in
a petgraph `Graph` that has not been mutated.  `HashMap` state is modelled
by association lists: `insert` overwrites the first entry with the given
key or appends a fresh one, and `len` is the list length (the key lists
stay duplicate free along every execution).  Work lists (`Vec` used as a
stack) are lists with the head as the top of the stack.

Loops are modelled with explicit fuel; the theorems below show that the
fuel supplied by the top-level function is never exhausted.
-/

/-- A finite graph presented through the dense-index enumeration contract:
`n` vertices `0 .. n-1`, and for each vertex the neighbor list in
iteration order. -/
structure WGraph where
  n : Nat
  nbrs : Nat → List Nat

/-- Well-formed (consistent) undirected simple graph, matching the contract
the spec assumes: neighbor lists are duplicate free, stay inside the dense
index range, are symmetric, and have no self loops. -/
def WGraph.WF (g : WGraph) : Prop :=
  (∀ u, u < g.n → (g.nbrs u).Nodup) ∧
  (∀ u, u < g.n → ∀ v ∈ g.nbrs u, v < g.n) ∧
  (∀ u, u < g.n → ∀ v, v < g.n → (v ∈ g.nbrs u ↔ u ∈ g.nbrs v)) ∧
  (∀ u, u < g.n → u ∉ g.nbrs u)

/-- The `colors: HashMap<NodeId, usize>` state. -/
abbrev CMap := List (Nat × Nat)

/-- The `domains: HashMap<NodeId, Vec<usize>>` state. -/
abbrev DMap := List (Nat × List Nat)

/-- `HashMap::insert` on `colors`: overwrite the first entry with this key,
or append a fresh entry. -/
def cinsert : CMap → Nat → Nat → CMap
  | [], k, v => [(k, v)]
  | p :: ps, k, v => if p.1 = k then (k, v) :: ps else p :: cinsert ps k v

/-- The in-place update performed through `domains.get_mut(&neighbor)`:
replace the first entry with this key (a no-op when the key is absent,
matching `if let Some(domain) = domains.get_mut(..)`). -/
def dupdate : DMap → Nat → List Nat → DMap
  | [], _, _ => []
  | p :: ps, k, d => if p.1 = k then (k, d) :: ps else p :: dupdate ps k d

/-- One pass of the `for neighbor in graph.neighbors(u)` loop inside
`propagate`, for a popped vertex of color `color`: remove `color` from the
domain of every still-uncolored neighbor, and when a removal shrinks a
domain to exactly one candidate, fix the neighbor to that candidate
(`domain[0]`) and push it onto the work list. -/
def scrub (color : Nat) : List Nat → CMap → DMap → List Nat → CMap × DMap × List Nat
  | [], colors, domains, stack => (colors, domains, stack)
  | v :: ns, colors, domains, stack =>
    if (List.lookup v colors).isSome then
      scrub color ns colors domains stack
    else
      match List.lookup v domains with
      | none => scrub color ns colors domains stack
      | some dom =>
        if color ∈ dom then
          -- domain.retain(|&c| c != color)
          let dom2 := dom.filter (fun c => c != color)
          if dom2.length = 1 then
            scrub color ns (cinsert colors v (dom2.headD 0)) (dupdate domains v dom2)
              (v :: stack)
          else
            scrub color ns colors (dupdate domains v dom2) stack
        else
          scrub color ns colors domains stack

/-- Total number of remaining domain candidates; together with the stack
length this is the termination measure of the `propagate` work list. -/
def domTotal (domains : DMap) : Nat := (domains.map (fun p => p.2.length)).sum

/-- The `while let Some(u) = stack.pop()` loop of `propagate`, with explicit
fuel.  The theorems show the fuel used by `propagate` always suffices. -/
def propagateFuel (g : WGraph) : Nat → List Nat → CMap → DMap → CMap × DMap
  | 0, _, colors, domains => (colors, domains)
  | _ + 1, [], colors, domains => (colors, domains)
  | fuel + 1, u :: stack, colors, domains =>
    match List.lookup u colors with
    | none => propagateFuel g fuel stack colors domains
    | some c =>
      let t := scrub c (g.nbrs u) colors domains stack
      propagateFuel g fuel t.2.2 t.1 t.2.1

/-- `propagate(graph, start, colors, domains)` with the initial work list
made explicit (the call sites pass `[start]`). -/
def propagate (g : WGraph) (stack : List Nat) (colors : CMap) (domains : DMap) :
    CMap × DMap :=
  propagateFuel g (domTotal domains + stack.length + 1) stack colors domains

/-- `entropy(node, colors, domains)`: 0 for a fixed node, otherwise the
domain size (`map_or(0, |d| d.len())`). -/
def entropy (v : Nat) (colors : CMap) (domains : DMap) : Nat :=
  if (List.lookup v colors).isSome then 0
  else ((List.lookup v domains).map List.length).getD 0

/-- The largest `usize` value, used by the driver as an infinite-entropy
sentinel. -/
def USIZE_MAX : Nat := 2 ^ 64 - 1

/-- Rust `Iterator::max_by_key`: when several elements have an equally
maximal key, the LAST one is returned. -/
def maxByKeyLast (key : Nat → Nat) (l : List Nat) : Option Nat :=
  l.foldl (fun acc v =>
    match acc with
    | none => some v
    | some b => if key b > key v then some b else some v) none

/-- Rust `Iterator::min_by_key`: when several elements have an equally
minimal key, the FIRST one is returned. -/
def minByKeyFirst (key : Nat → Nat) (l : List Nat) : Option Nat :=
  l.foldl (fun acc v =>
    match acc with
    | none => some v
    | some b => if key v < key b then some v else some b) none

/-- `(0..graph.node_bound()).map(from_index).map(|n| neighbors(n).count()).max().unwrap_or(0)`;
for natural numbers `max().unwrap_or(0)` is a fold of `Nat.max` over `0`. -/
def maxDegree (g : WGraph) : Nat :=
  ((List.range g.n).map (fun v => (g.nbrs v).length)).foldl Nat.max 0

/-- The driver: `while colors.len() < graph.node_count() { .. }`, with
explicit fuel bounding the number of iterations, also returning the final
value of `max_colors`.

The `None` arm of the Rust `match` executes `max_colors += 1; continue;`.
The unlabeled `continue` targets the innermost enclosing loop, which is
this `while` loop and NOT the outer `loop`, so it does not rebuild
`colors` or `domains`; consequently the body of the outer `loop` runs
exactly once and is inlined into `wfcColorFull` below.  Likewise, when the
selected vertex has an empty domain the `if` bodies are skipped and the
`while` loop is re-entered with every piece of state unchanged. -/
def colorLoop (g : WGraph) : Nat → Nat → CMap → DMap → Option (CMap × Nat)
  | 0, maxColors, colors, _ =>
    if colors.length < g.n then none else some (colors, maxColors)
  | fuel + 1, maxColors, colors, domains =>
    if colors.length < g.n then
      match minByKeyFirst
          (fun v => let e := entropy v colors domains
                    if e = 0 then USIZE_MAX else e)
          ((List.range g.n).filter (fun v => !(List.lookup v colors).isSome)) with
      | some v =>
        match List.lookup v domains with
        | some dom =>
          if dom.isEmpty then
            colorLoop g fuel maxColors colors domains
          else
            let colors2 := cinsert colors v (dom.headD 0)
            let t := propagate g [v] colors2 domains
            colorLoop g fuel maxColors t.1 t.2
        | none => colorLoop g fuel maxColors colors domains
      | none => colorLoop g fuel (maxColors + 1) colors domains
    else some (colors, maxColors)

/-- `wfc_color`, additionally exposing the final `max_colors` value.
`none` models the `unwrap()` panic on the empty graph (and driver fuel
exhaustion, which the theorems rule out for well-formed graphs). -/
def wfcColorFull (g : WGraph) : Option (CMap × Nat) :=
  let maxColors := maxDegree g + 1
  let domains : DMap := (List.range g.n).map (fun v => (v, List.range' 1 maxColors))
  match maxByKeyLast (fun v => (g.nbrs v).length) (List.range g.n) with
  | none => none
  | some start =>
    let colors := cinsert [] start 1
    let t := propagate g [start] colors domains
    colorLoop g (g.n + 1) maxColors t.1 t.2

/-- `wfc_color`: the returned `colors` mapping. -/
def wfcColor (g : WGraph) : Option CMap := (wfcColorFull g).map Prod.fst

/-- The triangle graph of the spec scenarios, as a sanity check below. -/
def triG : WGraph :=
  ⟨3, fun v => match v with | 0 => [1, 2] | 1 => [0, 2] | 2 => [0, 1] | _ => []⟩

example : wfcColor triG = some [(2, 1), (0, 2), (1, 3)] := by decide

example : triG.WF := by
  refine ⟨?_, ?_, ?_, ?_⟩ <;> decide

example : wfcColor ⟨0, fun _ => []⟩ = none := by decide

/-! ## Association list lemmas -/

theorem lookup_cons_eqn {β : Type} (k a : Nat) (b : β) (es : List (Nat × β)) :
    List.lookup k ((a, b) :: es) = if k = a then some b else List.lookup k es := by
  rw [List.lookup_cons]
  split <;> simp_all

theorem lookup_isSome_iff {β : Type} {m : List (Nat × β)} {k : Nat} :
    (List.lookup k m).isSome ↔ k ∈ m.map Prod.fst := by
  induction m with
  | nil => simp
  | cons p ps ih =>
    rcases p with ⟨a, b⟩
    by_cases h : k = a <;> simp [lookup_cons_eqn, h, ih]

theorem lookup_eq_none_iff {β : Type} {m : List (Nat × β)} {k : Nat} :
    List.lookup k m = none ↔ k ∉ m.map Prod.fst := by
  rw [← lookup_isSome_iff, Option.isSome_iff_ne_none]
  tauto

theorem lookup_mem {β : Type} {m : List (Nat × β)} {k : Nat} {v : β}
    (h : List.lookup k m = some v) : (k, v) ∈ m := by
  induction m with
  | nil => simp at h
  | cons p ps ih =>
    rcases p with ⟨a, b⟩
    rw [lookup_cons_eqn] at h
    by_cases hk : k = a
    · rw [if_pos hk] at h
      subst hk
      simp_all
    · rw [if_neg hk] at h
      exact List.mem_cons_of_mem _ (ih h)

theorem lookup_of_mem_nodup {β : Type} {m : List (Nat × β)} {k : Nat} {v : β}
    (hnd : (m.map Prod.fst).Nodup) (h : (k, v) ∈ m) : List.lookup k m = some v := by
  induction m with
  | nil => simp at h
  | cons p ps ih =>
    rcases p with ⟨a, b⟩
    simp only [List.map_cons, List.nodup_cons] at hnd
    rcases List.mem_cons.mp h with hm | hm
    · rw [Prod.mk.injEq] at hm
      rw [lookup_cons_eqn, if_pos hm.1, hm.2]
    · have hka : k ≠ a := by
        intro hh
        exact hnd.1 (List.mem_map.mpr ⟨(k, v), hm, hh⟩)
      rw [lookup_cons_eqn, if_neg hka]
      exact ih hnd.2 hm

theorem lookup_cinsert_self (m : CMap) (k v : Nat) :
    List.lookup k (cinsert m k v) = some v := by
  induction m with
  | nil => simp [cinsert, lookup_cons_eqn]
  | cons p ps ih =>
    rcases p with ⟨a, b⟩
    by_cases h : a = k
    · simp [cinsert, h, lookup_cons_eqn]
    · have h2 : k ≠ a := fun hh => h hh.symm
      simp [cinsert, h, lookup_cons_eqn, h2, ih]

theorem lookup_cinsert_ne (m : CMap) {k k2 : Nat} (v : Nat) (h : k2 ≠ k) :
    List.lookup k2 (cinsert m k v) = List.lookup k2 m := by
  induction m with
  | nil => simp [cinsert, lookup_cons_eqn, h]
  | cons p ps ih =>
    rcases p with ⟨a, b⟩
    by_cases ha : a = k
    · subst ha
      simp [cinsert, lookup_cons_eqn, h]
    · simp [cinsert, ha, lookup_cons_eqn, ih]

theorem map_fst_cinsert_mem {m : CMap} {k : Nat} (v : Nat) (h : k ∈ m.map Prod.fst) :
    (cinsert m k v).map Prod.fst = m.map Prod.fst := by
  induction m with
  | nil => simp at h
  | cons p ps ih =>
    rcases p with ⟨a, b⟩
    by_cases ha : a = k
    · simp [cinsert, ha]
    · rw [List.map_cons] at h
      rcases List.mem_cons.mp h with h1 | h1
      · exact absurd h1.symm ha
      · simp [cinsert, ha, ih h1]

theorem map_fst_cinsert_not_mem {m : CMap} {k : Nat} (v : Nat) (h : k ∉ m.map Prod.fst) :
    (cinsert m k v).map Prod.fst = m.map Prod.fst ++ [k] := by
  induction m with
  | nil => simp [cinsert]
  | cons p ps ih =>
    rcases p with ⟨a, b⟩
    simp only [List.map_cons, List.mem_cons] at h
    push_neg at h
    have ha : a ≠ k := fun hh => h.1 hh.symm
    simp [cinsert, ha, ih h.2]

theorem length_cinsert_not_mem {m : CMap} {k : Nat} (v : Nat) (h : k ∉ m.map Prod.fst) :
    (cinsert m k v).length = m.length + 1 := by
  have h1 : ((cinsert m k v).map Prod.fst).length = (m.map Prod.fst ++ [k]).length := by
    rw [map_fst_cinsert_not_mem v h]
  simpa using h1

theorem mem_cinsert {m : CMap} {k v : Nat} {p : Nat × Nat} (h : p ∈ cinsert m k v) :
    p = (k, v) ∨ p ∈ m := by
  induction m with
  | nil =>
    simp only [cinsert] at h
    exact Or.inl (List.mem_singleton.mp h)
  | cons q qs ih =>
    rcases q with ⟨a, b⟩
    by_cases ha : a = k
    · simp only [cinsert, ha, if_pos rfl] at h
      rcases List.mem_cons.mp h with h | h
      · exact Or.inl h
      · exact Or.inr (List.mem_cons_of_mem _ h)
    · simp only [cinsert, ha, if_neg ha] at h
      rcases List.mem_cons.mp h with h | h
      · exact Or.inr (List.mem_cons.mpr (Or.inl h))
      · rcases ih h with h | h
        · exact Or.inl h
        · exact Or.inr (List.mem_cons_of_mem _ h)

theorem lookup_dupdate_self (m : DMap) (k : Nat) (d : List Nat) :
    List.lookup k (dupdate m k d) = (List.lookup k m).map (fun _ => d) := by
  induction m with
  | nil => simp [dupdate]
  | cons p ps ih =>
    rcases p with ⟨a, b⟩
    by_cases ha : a = k
    · subst ha
      simp [dupdate, lookup_cons_eqn]
    · have h2 : k ≠ a := fun hh => ha hh.symm
      simp [dupdate, ha, lookup_cons_eqn, h2, ih]

theorem lookup_dupdate_ne (m : DMap) {k k2 : Nat} (d : List Nat) (h : k2 ≠ k) :
    List.lookup k2 (dupdate m k d) = List.lookup k2 m := by
  induction m with
  | nil => simp [dupdate]
  | cons p ps ih =>
    rcases p with ⟨a, b⟩
    by_cases ha : a = k
    · subst ha
      simp [dupdate, lookup_cons_eqn, h]
    · simp [dupdate, ha, lookup_cons_eqn, ih]

theorem map_fst_dupdate (m : DMap) (k : Nat) (d : List Nat) :
    (dupdate m k d).map Prod.fst = m.map Prod.fst := by
  induction m with
  | nil => simp [dupdate]
  | cons p ps ih =>
    rcases p with ⟨a, b⟩
    by_cases ha : a = k
    · simp [dupdate, ha]
    · simp [dupdate, ha, ih]

theorem mem_dupdate {m : DMap} {k : Nat} {d : List Nat} {p : Nat × List Nat}
    (h : p ∈ dupdate m k d) : p = (k, d) ∨ p ∈ m := by
  induction m with
  | nil => simp [dupdate] at h
  | cons q qs ih =>
    rcases q with ⟨a, b⟩
    by_cases ha : a = k
    · simp only [dupdate, if_pos ha] at h
      rcases List.mem_cons.mp h with h | h
      · exact Or.inl h
      · exact Or.inr (List.mem_cons_of_mem _ h)
    · simp only [dupdate, if_neg ha] at h
      rcases List.mem_cons.mp h with h | h
      · exact Or.inr (List.mem_cons.mpr (Or.inl h))
      · rcases ih h with h | h
        · exact Or.inl h
        · exact Or.inr (List.mem_cons_of_mem _ h)

theorem domTotal_dupdate {m : DMap} {k : Nat} {d0 : List Nat} (d : List Nat)
    (h : List.lookup k m = some d0) :
    domTotal (dupdate m k d) + d0.length = domTotal m + d.length := by
  induction m with
  | nil => simp at h
  | cons p ps ih =>
    rcases p with ⟨a, b⟩
    rw [lookup_cons_eqn] at h
    by_cases ha : k = a
    · rw [if_pos ha] at h
      injection h with h
      subst h
      simp [dupdate, ha.symm, domTotal]
      omega
    · rw [if_neg ha] at h
      have ha2 : a ≠ k := fun hh => ha hh.symm
      simp only [dupdate, if_neg ha2, domTotal, List.map_cons, List.sum_cons]
      have := ih h
      simp only [domTotal] at this
      omega

/-! ## Characterization of the selection folds -/

theorem minFold_go (key : Nat → Nat) :
    ∀ (l : List Nat) (b : Nat), List.Pairwise (· < ·) (b :: l) →
      ∃ r, List.foldl (fun acc v =>
          match acc with
          | none => some v
          | some b => if key v < key b then some v else some b) (some b) l = some r ∧
        r ∈ b :: l ∧ (∀ w ∈ b :: l, key r ≤ key w) ∧
        (∀ w ∈ b :: l, key w = key r → r ≤ w) := by
  intro l
  induction l with
  | nil =>
    intro b _
    exact ⟨b, rfl, by simp, by simp, by simp⟩
  | cons v l2 ih =>
    intro b hp
    rw [List.pairwise_cons] at hp
    have hbv : b < v := hp.1 v (List.mem_cons_self _ _)
    have hp2 := hp.2
    rw [List.foldl_cons]
    by_cases hk : key v < key b
    · rw [show (match some b with
          | none => some v
          | some b => if key v < key b then some v else some b) = some v by simp [hk]]
      obtain ⟨r, hr, hrm, hmin, htie⟩ := ih v hp2
      refine ⟨r, hr, List.mem_cons_of_mem _ hrm, ?_, ?_⟩
      · intro w hw
        rcases List.mem_cons.mp hw with rfl | hw
        · exact le_of_lt (lt_of_le_of_lt (hmin v (List.mem_cons_self _ _)) hk)
        · exact hmin w hw
      · intro w hw he
        rcases List.mem_cons.mp hw with rfl | hw
        · exact absurd he (by
            have := lt_of_le_of_lt (hmin v (List.mem_cons_self _ _)) hk
            omega)
        · exact htie w hw he
    · rw [show (match some b with
          | none => some v
          | some b => if key v < key b then some v else some b) = some b by simp [hk]]
      have hp3 : List.Pairwise (· < ·) (b :: l2) := by
        rw [List.pairwise_cons] at hp2 ⊢
        exact ⟨fun w hw => lt_trans hbv (hp2.1 w hw), hp2.2⟩
      obtain ⟨r, hr, hrm, hmin, htie⟩ := ih b hp3
      have hkbv : key b ≤ key v := le_of_not_lt hk
      refine ⟨r, hr, ?_, ?_, ?_⟩
      · rcases List.mem_cons.mp hrm with rfl | hrm
        · exact List.mem_cons_self _ _
        · exact List.mem_cons_of_mem _ (List.mem_cons_of_mem _ hrm)
      · intro w hw
        rcases List.mem_cons.mp hw with rfl | hw
        · exact hmin _ (List.mem_cons_self _ _)
        · rcases List.mem_cons.mp hw with rfl | hw
          · exact le_trans (hmin b (List.mem_cons_self _ _)) hkbv
          · exact hmin w (List.mem_cons_of_mem _ hw)
      · intro w hw he
        rcases List.mem_cons.mp hw with rfl | hw
        · exact htie w (List.mem_cons_self _ _) he
        · rcases List.mem_cons.mp hw with rfl | hw
          · -- w = v; show r ≤ v using r ≤ b < v
            have h1 : key r ≤ key b := hmin b (List.mem_cons_self _ _)
            have h2 : key b ≤ key r := he ▸ hkbv
            have h3 : r ≤ b := htie b (List.mem_cons_self _ _) (le_antisymm h2 h1)
            omega
          · exact htie w (List.mem_cons_of_mem _ hw) he

theorem minByKeyFirst_spec {key : Nat → Nat} {l : List Nat} {v : Nat}
    (hsort : List.Pairwise (· < ·) l) (h : minByKeyFirst key l = some v) :
    v ∈ l ∧ (∀ w ∈ l, key v ≤ key w) ∧ (∀ w ∈ l, key w = key v → v ≤ w) := by
  cases l with
  | nil => simp [minByKeyFirst] at h
  | cons b l2 =>
    obtain ⟨r, hr, hrm, hmin, htie⟩ := minFold_go key l2 b hsort
    rw [minByKeyFirst, List.foldl_cons] at h
    rw [hr] at h
    injection h with h
    subst h
    exact ⟨hrm, hmin, htie⟩

theorem minByKeyFirst_ne_nil {key : Nat → Nat} {l : List Nat} (h : l ≠ []) :
    ∃ v, minByKeyFirst key l = some v := by
  cases l with
  | nil => exact absurd rfl h
  | cons b l2 =>
    rw [minByKeyFirst, List.foldl_cons]
    clear h
    induction l2 generalizing b with
    | nil => exact ⟨b, rfl⟩
    | cons v l3 ih =>
      rw [List.foldl_cons]
      by_cases hk : key v < key b
      · simpa [hk] using ih v
      · simpa [hk] using ih b

theorem maxFold_go (key : Nat → Nat) :
    ∀ (l : List Nat) (b : Nat), List.Pairwise (· < ·) (b :: l) →
      ∃ r, List.foldl (fun acc v =>
          match acc with
          | none => some v
          | some b => if key b > key v then some b else some v) (some b) l = some r ∧
        r ∈ b :: l ∧ (∀ w ∈ b :: l, key w ≤ key r) ∧
        (∀ w ∈ b :: l, key w = key r → w ≤ r) := by
  intro l
  induction l with
  | nil =>
    intro b _
    exact ⟨b, rfl, by simp, by simp, by simp⟩
  | cons v l2 ih =>
    intro b hp
    rw [List.pairwise_cons] at hp
    have hbv : b < v := hp.1 v (List.mem_cons_self _ _)
    have hp2 := hp.2
    rw [List.foldl_cons]
    by_cases hk : key b > key v
    · rw [show (match some b with
          | none => some v
          | some b => if key b > key v then some b else some v) = some b by simp [hk]]
      have hp3 : List.Pairwise (· < ·) (b :: l2) := by
        rw [List.pairwise_cons] at hp2 ⊢
        exact ⟨fun w hw => lt_trans hbv (hp2.1 w hw), hp2.2⟩
      obtain ⟨r, hr, hrm, hmax, htie⟩ := ih b hp3
      refine ⟨r, hr, ?_, ?_, ?_⟩
      · rcases List.mem_cons.mp hrm with rfl | hrm
        · exact List.mem_cons_self _ _
        · exact List.mem_cons_of_mem _ (List.mem_cons_of_mem _ hrm)
      · intro w hw
        rcases List.mem_cons.mp hw with rfl | hw
        · exact hmax _ (List.mem_cons_self _ _)
        · rcases List.mem_cons.mp hw with rfl | hw
          · exact le_trans (le_of_lt hk) (hmax b (List.mem_cons_self _ _))
          · exact hmax w (List.mem_cons_of_mem _ hw)
      · intro w hw he
        rcases List.mem_cons.mp hw with rfl | hw
        · exact htie w (List.mem_cons_self _ _) he
        · rcases List.mem_cons.mp hw with rfl | hw
          · -- w = v; but key v < key b ≤ key r contradicts key v = key r
            have h1 : key b ≤ key r := hmax b (List.mem_cons_self _ _)
            omega
          · exact htie w (List.mem_cons_of_mem _ hw) he
    · rw [show (match some b with
          | none => some v
          | some b => if key b > key v then some b else some v) = some v by simp [hk]]
      have hkbv : key b ≤ key v := le_of_not_lt hk
      obtain ⟨r, hr, hrm, hmax, htie⟩ := ih v hp2
      refine ⟨r, hr, List.mem_cons_of_mem _ hrm, ?_, ?_⟩
      · intro w hw
        rcases List.mem_cons.mp hw with rfl | hw
        · exact le_trans hkbv (hmax v (List.mem_cons_self _ _))
        · exact hmax w hw
      · intro w hw he
        rcases List.mem_cons.mp hw with rfl | hw
        · -- w = b: b < v ≤ r
          have : v ≤ r := by
            rcases List.mem_cons.mp hrm with rfl | hrm2
            · exact le_refl _
            · rw [List.pairwise_cons] at hp2
              exact le_of_lt (hp2.1 r hrm2)
          omega
        · exact htie w hw he

theorem maxByKeyLast_spec {key : Nat → Nat} {l : List Nat} {v : Nat}
    (hsort : List.Pairwise (· < ·) l) (h : maxByKeyLast key l = some v) :
    v ∈ l ∧ (∀ w ∈ l, key w ≤ key v) ∧ (∀ w ∈ l, key w = key v → w ≤ v) := by
  cases l with
  | nil => simp [maxByKeyLast] at h
  | cons b l2 =>
    obtain ⟨r, hr, hrm, hmax, htie⟩ := maxFold_go key l2 b hsort
    rw [maxByKeyLast, List.foldl_cons] at h
    rw [hr] at h
    injection h with h
    subst h
    exact ⟨hrm, hmax, htie⟩

theorem maxByKeyLast_ne_nil {key : Nat → Nat} {l : List Nat} (h : l ≠ []) :
    ∃ v, maxByKeyLast key l = some v := by
  cases l with
  | nil => exact absurd rfl h
  | cons b l2 =>
    rw [maxByKeyLast, List.foldl_cons]
    clear h
    induction l2 generalizing b with
    | nil => exact ⟨b, rfl⟩
    | cons v l3 ih =>
      rw [List.foldl_cons]
      by_cases hk : key b > key v
      · simpa [hk] using ih b
      · simpa [hk] using ih v

theorem maxByKeyLast_none_iff {key : Nat → Nat} {l : List Nat} :
    maxByKeyLast key l = none ↔ l = [] := by
  constructor
  · intro h
    by_contra hne
    obtain ⟨v, hv⟩ := @maxByKeyLast_ne_nil key l hne
    rw [h] at hv
    exact Option.noConfusion hv
  · rintro rfl
    rfl

/-! ## The maximum degree bound -/

theorem foldl_max_init_le (l : List Nat) (a : Nat) : a ≤ l.foldl Nat.max a := by
  induction l generalizing a with
  | nil => exact le_refl _
  | cons x l ih => exact le_trans (Nat.le_max_left a x) (ih _)

theorem le_foldl_max {l : List Nat} {x : Nat} (h : x ∈ l) (a : Nat) :
    x ≤ l.foldl Nat.max a := by
  induction l generalizing a with
  | nil => simp at h
  | cons y l ih =>
    rcases List.mem_cons.mp h with rfl | h
    · exact le_trans (Nat.le_max_right a x) (foldl_max_init_le _ _)
    · exact ih h _

theorem deg_le_maxDegree (g : WGraph) {v : Nat} (h : v < g.n) :
    (g.nbrs v).length ≤ maxDegree g := by
  have hm : (g.nbrs v).length ∈ (List.range g.n).map (fun v => (g.nbrs v).length) :=
    List.mem_map.mpr ⟨v, List.mem_range.mpr h, rfl⟩
  exact le_foldl_max hm 0

/-! ## Invariants

The execution invariant of one attempt of `wfc_color`.  `mc` is the value
of `max_colors` (which the theorems show never changes); `stack` is the
pending work list of `propagate` (empty between driver steps).

`p1` is the key accounting fact: a color can be missing from the domain of
an uncolored vertex only because some already-processed colored in-neighbor
carries that color.  `p2` states the propagation guarantee: the color of a
processed colored neighbor is never in an uncolored vertex domain.  `p3` is
validity of the partial coloring. -/

/-- The domain of a vertex (defaulting to the empty list, as the code does
nothing when `domains.get` misses). -/
def domOf (domains : DMap) (v : Nat) : List Nat := (List.lookup v domains).getD []

/-- The colors map only grows within an attempt. -/
def colorsSub (m1 m2 : CMap) : Prop :=
  ∀ k c, List.lookup k m1 = some c → List.lookup k m2 = some c

structure Base (g : WGraph) (mc : Nat) (colors : CMap) (domains : DMap) : Prop where
  dkeys : domains.map Prod.fst = List.range g.n
  ckeys : ∀ p ∈ colors, p.1 < g.n
  cnodup : (colors.map Prod.fst).Nodup
  cvals : ∀ p ∈ colors, 1 ≤ p.2 ∧ p.2 ≤ mc
  dvals : ∀ p ∈ domains, p.2.Sublist (List.range' 1 mc)
  dcol : ∀ p ∈ domains, (List.lookup p.1 colors).isSome = true → p.2 ≠ []
  p3 : ∀ u v cu cv, List.lookup u colors = some cu → List.lookup v colors = some cv →
    v ∈ g.nbrs u → cu ≠ cv

structure DInv (g : WGraph) (mc : Nat) (stack : List Nat) (colors : CMap)
    (domains : DMap) : Prop where
  base : Base g mc colors domains
  scol : ∀ w ∈ stack, (List.lookup w colors).isSome = true
  snodup : stack.Nodup
  p1 : ∀ v, v < g.n → List.lookup v colors = none →
    ∀ c, 1 ≤ c → c ≤ mc → c ∉ domOf domains v →
    ∃ w, List.lookup w colors = some c ∧ v ∈ g.nbrs w ∧ w ∉ stack
  p2 : ∀ v, v < g.n → List.lookup v colors = none →
    ∀ w c, List.lookup w colors = some c → v ∈ g.nbrs w → w ∉ stack →
    c ∉ domOf domains v

/-- Invariant holding while `propagate` is scrubbing the neighbor list of
the popped vertex `u` (of color `c`); `ns` is the not-yet-visited suffix of
`u`'s neighbor list.  In `p1`/`p2` a witness is a processed colored vertex:
either one different from `u` and not pending, or `u` itself provided its
scrub of the vertex in question is already done. -/
structure SInv (g : WGraph) (mc : Nat) (u c : Nat) (ns : List Nat) (stack : List Nat)
    (colors : CMap) (domains : DMap) : Prop where
  base : Base g mc colors domains
  scol : ∀ w ∈ stack, (List.lookup w colors).isSome = true
  snodup : stack.Nodup
  ucol : List.lookup u colors = some c
  ustk : u ∉ stack
  nssub : ∀ x ∈ ns, x ∈ g.nbrs u
  nsnd : ns.Nodup
  p1 : ∀ v, v < g.n → List.lookup v colors = none →
    ∀ c2, 1 ≤ c2 → c2 ≤ mc → c2 ∉ domOf domains v →
    ∃ w, List.lookup w colors = some c2 ∧ v ∈ g.nbrs w ∧
      ((w ∉ stack ∧ w ≠ u) ∨ (w = u ∧ v ∉ ns))
  p2 : ∀ v, v < g.n → List.lookup v colors = none →
    ∀ w c2, List.lookup w colors = some c2 → v ∈ g.nbrs w →
    ((w ∉ stack ∧ w ≠ u) ∨ (w = u ∧ v ∉ ns)) →
    c2 ∉ domOf domains v

theorem Base.lookup_dom_isSome {g : WGraph} {mc : Nat} {colors : CMap} {domains : DMap}
    (hb : Base g mc colors domains) {v : Nat} :
    (List.lookup v domains).isSome = true ↔ v < g.n := by
  rw [lookup_isSome_iff, hb.dkeys, List.mem_range]

theorem Base.lookup_dom_eq {g : WGraph} {mc : Nat} {colors : CMap} {domains : DMap}
    (hb : Base g mc colors domains) {v : Nat} (hv : v < g.n) :
    List.lookup v domains = some (domOf domains v) := by
  rcases Option.isSome_iff_exists.mp (hb.lookup_dom_isSome.mpr hv) with ⟨d, hd⟩
  rw [domOf, hd]
  rfl

theorem Base.domOf_sublist {g : WGraph} {mc : Nat} {colors : CMap} {domains : DMap}
    (hb : Base g mc colors domains) {v : Nat} (hv : v < g.n) :
    (domOf domains v).Sublist (List.range' 1 mc) :=
  hb.dvals _ (lookup_mem (hb.lookup_dom_eq hv))

theorem Base.colored_lt {g : WGraph} {mc : Nat} {colors : CMap} {domains : DMap}
    (hb : Base g mc colors domains) {w c : Nat}
    (h : List.lookup w colors = some c) : w < g.n :=
  hb.ckeys _ (lookup_mem h)

theorem Base.dnodup {g : WGraph} {mc : Nat} {colors : CMap} {domains : DMap}
    (hb : Base g mc colors domains) : (domains.map Prod.fst).Nodup := by
  rw [hb.dkeys]
  exact List.nodup_range g.n

/-! ## The counting argument

A color is missing from an uncolored domain only on account of a processed
colored in-neighbor, and distinct missing colors have distinct witnesses,
so at most `degree` colors can ever be missing.  With the initial budget
`max_colors = max_degree + 1` this keeps every uncolored domain nonempty,
and when a domain reaches a single candidate every neighbor must already
be a processed witness, making the forced assignment safe. -/

theorem missing_card_le {mc : Nat} {d : List Nat} (hd : d.Sublist (List.range' 1 mc))
    (W : Finset Nat) (cf : Nat → Nat)
    (hwit : ∀ c2, 1 ≤ c2 → c2 ≤ mc → c2 ∉ d → ∃ w ∈ W, cf w = c2) :
    mc ≤ W.card + d.length := by
  classical
  have hrnd : (List.range' 1 mc).Nodup := List.nodup_range' 1 mc
  have hdnd : d.Nodup := List.Nodup.sublist hd hrnd
  have hsub : d.toFinset ⊆ (List.range' 1 mc).toFinset := by
    intro x hx
    exact List.mem_toFinset.mpr (hd.subset (List.mem_toFinset.mp hx))
  have hcardM : ((List.range' 1 mc).toFinset \ d.toFinset).card = mc - d.length := by
    rw [Finset.card_sdiff hsub, List.toFinset_card_of_nodup hrnd,
      List.toFinset_card_of_nodup hdnd, List.length_range']
  have hMsub : (List.range' 1 mc).toFinset \ d.toFinset ⊆ W.image cf := by
    intro c2 hc2
    rw [Finset.mem_sdiff, List.mem_toFinset, List.mem_toFinset, List.mem_range'_1] at hc2
    obtain ⟨⟨h1, h2⟩, h3⟩ := hc2
    obtain ⟨w, hw, hcf⟩ := hwit c2 h1 (by omega) h3
    exact Finset.mem_image.mpr ⟨w, hw, hcf⟩
  have h1 := Finset.card_le_card hMsub
  have h2 : (W.image cf).card ≤ W.card := Finset.card_image_le
  have hdl : d.length ≤ mc := by
    have := hd.length_le
    simpa using this
  omega

/-- Any uncolored vertex whose missing colors all have colored in-neighbor
witnesses has a domain of size at least `mc - degree`. -/
theorem uncolored_dom_large {g : WGraph} (hWF : g.WF) {mc : Nat}
    {colors : CMap} {domains : DMap} (hb : Base g mc colors domains)
    {v : Nat} (hv : v < g.n)
    (hwit : ∀ c2, 1 ≤ c2 → c2 ≤ mc → c2 ∉ domOf domains v →
      ∃ w, List.lookup w colors = some c2 ∧ v ∈ g.nbrs w) :
    mc ≤ (g.nbrs v).length + (domOf domains v).length := by
  classical
  have hcard := missing_card_le (hb.domOf_sublist hv)
    (((g.nbrs v).filter (fun w => (List.lookup w colors).isSome)).toFinset)
    (fun w => (List.lookup w colors).getD 0)
    (by
      intro c2 h1 h2 h3
      obtain ⟨w, hwc, hwn⟩ := hwit c2 h1 h2 h3
      have hwlt : w < g.n := hb.colored_lt hwc
      have hsym : w ∈ g.nbrs v := (hWF.2.2.1 w hwlt v hv).mp hwn
      refine ⟨w, ?_, ?_⟩
      · exact List.mem_toFinset.mpr (List.mem_filter.mpr ⟨hsym, by simp [hwc]⟩)
      · simp [hwc])
  have hWle : ((g.nbrs v).filter (fun w => (List.lookup w colors).isSome)).toFinset.card
      ≤ (g.nbrs v).length :=
    le_trans (List.toFinset_card_le _) (List.length_filter_le _ _)
  omega

/-- When the domain of an uncolored vertex has shrunk to a single
candidate, every witness condition `q` holding of the missing-color
witnesses must hold of every neighbor. -/
theorem nbrs_all_witness {g : WGraph} (hWF : g.WF) {v mc : Nat} (hv : v < g.n)
    (hmc : maxDegree g < mc) {d : List Nat} (hd : d.Sublist (List.range' 1 mc))
    (hd1 : d.length = 1) (q : Nat → Bool) (cf : Nat → Nat)
    (hwit : ∀ c2, 1 ≤ c2 → c2 ≤ mc → c2 ∉ d →
      ∃ w, w ∈ g.nbrs v ∧ q w = true ∧ cf w = c2) :
    ∀ z ∈ g.nbrs v, q z = true := by
  classical
  have hcard := missing_card_le hd (((g.nbrs v).filter q).toFinset) cf
    (by
      intro c2 h1 h2 h3
      obtain ⟨w, hwn, hq, hcf⟩ := hwit c2 h1 h2 h3
      exact ⟨w, List.mem_toFinset.mpr (List.mem_filter.mpr ⟨hwn, hq⟩), hcf⟩)
  have hnd : (g.nbrs v).Nodup := hWF.1 v hv
  have hfnd : ((g.nbrs v).filter q).Nodup := List.Nodup.filter _ hnd
  have hsub : ((g.nbrs v).filter q).toFinset ⊆ (g.nbrs v).toFinset := by
    intro x hx
    exact List.mem_toFinset.mpr (List.mem_of_mem_filter (List.mem_toFinset.mp hx))
  have hdeg : (g.nbrs v).length ≤ maxDegree g := deg_le_maxDegree g hv
  have hTcard : (g.nbrs v).toFinset.card = (g.nbrs v).length :=
    List.toFinset_card_of_nodup hnd
  have hWcard : ((g.nbrs v).filter q).toFinset.card = ((g.nbrs v).filter q).length :=
    List.toFinset_card_of_nodup hfnd
  have heq : ((g.nbrs v).filter q).toFinset = (g.nbrs v).toFinset := by
    apply Finset.eq_of_subset_of_card_le hsub
    omega
  intro z hz
  have : z ∈ ((g.nbrs v).filter q).toFinset := by
    rw [heq]
    exact List.mem_toFinset.mpr hz
  exact (List.mem_filter.mp (List.mem_toFinset.mp this)).2

/-! ## Small helpers and unfolding equations for `scrub` -/

theorem headD_mem {l : List Nat} (h : l ≠ []) (a : Nat) : l.headD a ∈ l := by
  cases l with
  | nil => exact absurd rfl h
  | cons x xs => exact List.mem_cons_self _ _

theorem not_isSome_eq_none {α : Type} {o : Option α} (h : ¬ o.isSome = true) : o = none := by
  cases o with
  | none => rfl
  | some a => simp at h

theorem lookup_cinsert_cases {m : CMap} {k v x c : Nat}
    (h : List.lookup k (cinsert m v x) = some c) :
    (k = v ∧ c = x) ∨ (k ≠ v ∧ List.lookup k m = some c) := by
  by_cases hk : k = v
  · subst hk
    rw [lookup_cinsert_self] at h
    exact Or.inl ⟨rfl, (Option.some.inj h).symm⟩
  · rw [lookup_cinsert_ne _ _ hk] at h
    exact Or.inr ⟨hk, h⟩

theorem colorsSub_trans {m1 m2 m3 : CMap} (h1 : colorsSub m1 m2) (h2 : colorsSub m2 m3) :
    colorsSub m1 m3 := fun k c h => h2 k c (h1 k c h)

theorem colorsSub_cinsert {m : CMap} {v : Nat} (x : Nat)
    (h : List.lookup v m = none) : colorsSub m (cinsert m v x) := by
  intro k c hk
  have hkv : k ≠ v := by
    intro hh
    rw [hh, h] at hk
    exact Option.noConfusion hk
  rw [lookup_cinsert_ne _ _ hkv]
  exact hk

theorem scrub_cons_colored {c v : Nat} {ns : List Nat} {colors : CMap} {domains : DMap}
    {stack : List Nat} (hvc : (List.lookup v colors).isSome = true) :
    scrub c (v :: ns) colors domains stack = scrub c ns colors domains stack := by
  simp [scrub, hvc]

theorem scrub_cons_none {c v : Nat} {ns : List Nat} {colors : CMap} {domains : DMap}
    {stack : List Nat} (hvc : List.lookup v colors = none)
    (hd : List.lookup v domains = none) :
    scrub c (v :: ns) colors domains stack = scrub c ns colors domains stack := by
  simp [scrub, hvc, hd]

theorem scrub_cons_skip {c v : Nat} {ns : List Nat} {colors : CMap} {domains : DMap}
    {stack : List Nat} {dom : List Nat} (hvc : List.lookup v colors = none)
    (hd : List.lookup v domains = some dom) (hc : c ∉ dom) :
    scrub c (v :: ns) colors domains stack = scrub c ns colors domains stack := by
  simp [scrub, hvc, hd, hc]

theorem scrub_cons_update {c v : Nat} {ns : List Nat} {colors : CMap} {domains : DMap}
    {stack : List Nat} {dom : List Nat} (hvc : List.lookup v colors = none)
    (hd : List.lookup v domains = some dom) (hc : c ∈ dom)
    (hlen : (dom.filter (fun x => x != c)).length ≠ 1) :
    scrub c (v :: ns) colors domains stack =
      scrub c ns colors (dupdate domains v (dom.filter (fun x => x != c))) stack := by
  simp [scrub, hvc, hd, hc, hlen]

theorem scrub_cons_force {c v : Nat} {ns : List Nat} {colors : CMap} {domains : DMap}
    {stack : List Nat} {dom : List Nat} (hvc : List.lookup v colors = none)
    (hd : List.lookup v domains = some dom) (hc : c ∈ dom)
    (hlen : (dom.filter (fun x => x != c)).length = 1) :
    scrub c (v :: ns) colors domains stack =
      scrub c ns (cinsert colors v ((dom.filter (fun x => x != c)).headD 0))
        (dupdate domains v (dom.filter (fun x => x != c))) (v :: stack) := by
  simp [scrub, hvc, hd, hc, hlen]

/-! ## Preservation of the invariant through one neighbor scrub pass -/

theorem scrub_sinv {g : WGraph} (hWF : g.WF) {mc u c : Nat} (hmc : maxDegree g < mc) :
    ∀ (ns : List Nat) (colors : CMap) (domains : DMap) (stack : List Nat),
      SInv g mc u c ns stack colors domains →
      SInv g mc u c [] (scrub c ns colors domains stack).2.2
          (scrub c ns colors domains stack).1 (scrub c ns colors domains stack).2.1 ∧
        colorsSub colors (scrub c ns colors domains stack).1 := by
  intro ns
  induction ns with
  | nil =>
    intro colors domains stack h
    exact ⟨h, fun k c2 hk => hk⟩
  | cons v ns2 ih =>
    intro colors domains stack h
    have hvns : v ∉ ns2 := (List.nodup_cons.mp h.nsnd).1
    have hns2nd : ns2.Nodup := (List.nodup_cons.mp h.nsnd).2
    have hnssub2 : ∀ x ∈ ns2, x ∈ g.nbrs u := fun x hx => h.nssub x (List.mem_cons_of_mem _ hx)
    have hvnb : v ∈ g.nbrs u := h.nssub v (List.mem_cons_self _ _)
    by_cases hvc : (List.lookup v colors).isSome = true
    · -- the neighbor is already colored: nothing happens
      rw [scrub_cons_colored hvc]
      apply ih
      exact
        { base := h.base
          scol := h.scol
          snodup := h.snodup
          ucol := h.ucol
          ustk := h.ustk
          nssub := hnssub2
          nsnd := hns2nd
          p1 := by
            intro v0 hv0 hunc c2 h1 h2 hmiss
            obtain ⟨w, hw1, hw2, hw3⟩ := h.p1 v0 hv0 hunc c2 h1 h2 hmiss
            refine ⟨w, hw1, hw2, ?_⟩
            rcases hw3 with hw3 | ⟨rfl, hw4⟩
            · exact Or.inl hw3
            · exact Or.inr ⟨rfl, fun hh => hw4 (List.mem_cons_of_mem _ hh)⟩
          p2 := by
            intro v0 hv0 hunc w c2 hw hn cond
            rcases cond with cond | ⟨rfl, hc4⟩
            · exact h.p2 v0 hv0 hunc w c2 hw hn (Or.inl cond)
            · have hv0v : v0 ≠ v := by
                intro hh
                rw [hh] at hunc
                rw [hunc] at hvc
                simp at hvc
              exact h.p2 v0 hv0 hunc w c2 hw hn (Or.inr ⟨rfl, by
                intro hmem
                rcases List.mem_cons.mp hmem with hh | hh
                · exact hv0v hh
                · exact hc4 hh⟩) }
    · have hvcn : List.lookup v colors = none := not_isSome_eq_none hvc
      cases hd : List.lookup v domains with
      | none =>
        -- the neighbor has no domain entry (it is out of the index range)
        have hvnotlt : ¬ v < g.n := by
          intro hlt
          have := h.base.lookup_dom_isSome.mpr hlt
          rw [hd] at this
          simp at this
        rw [scrub_cons_none hvcn hd]
        apply ih
        exact
          { base := h.base
            scol := h.scol
            snodup := h.snodup
            ucol := h.ucol
            ustk := h.ustk
            nssub := hnssub2
            nsnd := hns2nd
            p1 := by
              intro v0 hv0 hunc c2 h1 h2 hmiss
              obtain ⟨w, hw1, hw2, hw3⟩ := h.p1 v0 hv0 hunc c2 h1 h2 hmiss
              refine ⟨w, hw1, hw2, ?_⟩
              rcases hw3 with hw3 | ⟨rfl, hw4⟩
              · exact Or.inl hw3
              · exact Or.inr ⟨rfl, fun hh => hw4 (List.mem_cons_of_mem _ hh)⟩
            p2 := by
              intro v0 hv0 hunc w c2 hw hn cond
              rcases cond with cond | ⟨rfl, hc4⟩
              · exact h.p2 v0 hv0 hunc w c2 hw hn (Or.inl cond)
              · have hv0v : v0 ≠ v := by
                  intro hh
                  rw [hh] at hv0
                  exact hvnotlt hv0
                exact h.p2 v0 hv0 hunc w c2 hw hn (Or.inr ⟨rfl, by
                  intro hmem
                  rcases List.mem_cons.mp hmem with hh | hh
                  · exact hv0v hh
                  · exact hc4 hh⟩) }
      | some dom =>
        have hv : v < g.n := h.base.lookup_dom_isSome.mp (by rw [hd]; rfl)
        have hdomsub : dom.Sublist (List.range' 1 mc) :=
          h.base.dvals (v, dom) (lookup_mem hd)
        by_cases hcmem : c ∈ dom
        · have hdom2sub : (dom.filter (fun x => x != c)).Sublist (List.range' 1 mc) :=
            (List.filter_sublist _).trans hdomsub
          by_cases hlen : (dom.filter (fun x => x != c)).length = 1
          · -- the domain collapses to one candidate: force the assignment
            have hdom2ne : dom.filter (fun x => x != c) ≠ [] := by
              intro hh
              rw [hh] at hlen
              simp at hlen
            have hx2 : (dom.filter (fun x => x != c)).headD 0 ∈ dom.filter (fun x => x != c) :=
              headD_mem hdom2ne 0
            have hx_mem : (dom.filter (fun x => x != c)).headD 0 ∈ dom :=
              List.mem_of_mem_filter hx2
            have hxc : (dom.filter (fun x => x != c)).headD 0 ≠ c := by
              have := (List.mem_filter.mp hx2).2
              simpa using this
            have hx_range := List.mem_range'_1.mp (hdomsub.subset hx_mem)
            have hult : u < g.n := h.base.colored_lt h.ucol
            have hunbv : u ∈ g.nbrs v := (hWF.2.2.1 u hult v hv).mp hvnb
            have hvkeys : v ∉ colors.map Prod.fst := lookup_eq_none_iff.mp hvcn
            have huv : u ≠ v := by
              intro hh
              have huc := h.ucol
              rw [hh, hvcn] at huc
              exact Option.noConfusion huc
            -- the counting argument: every neighbor of `v` is colored and processed
            have hall : ∀ z ∈ g.nbrs v,
                (List.lookup z colors).isSome = true ∧ ((z ∉ stack ∧ z ≠ u) ∨ z = u) := by
              have happ := nbrs_all_witness hWF hv hmc hdom2sub hlen
                (fun z => decide ((List.lookup z colors).isSome = true ∧
                  ((z ∉ stack ∧ z ≠ u) ∨ z = u)))
                (fun z => (List.lookup z colors).getD 0) ?_
              · intro z hz
                have := happ z hz
                rw [decide_eq_true_eq] at this
                exact this
              · intro c2 h1 h2 hmiss
                by_cases hc2c : c2 = c
                · subst hc2c
                  refine ⟨u, hunbv, ?_, ?_⟩
                  · simp only [decide_eq_true_eq]
                    exact ⟨by simp [h.ucol], Or.inr trivial⟩
                  · simp only [h.ucol, Option.getD_some]
                · have hmiss2 : c2 ∉ dom := by
                    intro hin
                    exact hmiss (List.mem_filter.mpr ⟨hin, by simpa using hc2c⟩)
                  obtain ⟨w, hw1, hw2, hw3⟩ := h.p1 v hv hvcn c2 h1 h2
                    (by simp only [domOf, hd, Option.getD_some]; exact hmiss2)
                  have hwlt : w < g.n := h.base.colored_lt hw1
                  have hwnb : w ∈ g.nbrs v := (hWF.2.2.1 w hwlt v hv).mp hw2
                  rcases hw3 with ⟨hw3, hw4⟩ | ⟨rfl, hw5⟩
                  · refine ⟨w, hwnb, ?_, ?_⟩
                    · simp only [decide_eq_true_eq]
                      exact ⟨by simp [hw1], Or.inl ⟨hw3, hw4⟩⟩
                    · simp only [hw1, Option.getD_some]
                  · exact absurd (List.mem_cons_self v ns2) hw5
            rw [scrub_cons_force hvcn hd hcmem hlen]
            have hstep := ih (cinsert colors v ((dom.filter (fun x => x != c)).headD 0))
              (dupdate domains v (dom.filter (fun x => x != c))) (v :: stack)
              { base :=
                  { dkeys := by rw [map_fst_dupdate]; exact h.base.dkeys
                    ckeys := by
                      intro p hp
                      rcases mem_cinsert hp with rfl | hp
                      · exact hv
                      · exact h.base.ckeys p hp
                    cnodup := by
                      rw [map_fst_cinsert_not_mem _ hvkeys]
                      refine List.Nodup.append h.base.cnodup (List.nodup_singleton v) ?_
                      intro a ha hb
                      rw [List.mem_singleton] at hb
                      subst hb
                      exact hvkeys ha
                    cvals := by
                      intro p hp
                      rcases mem_cinsert hp with rfl | hp
                      · exact ⟨hx_range.1, by omega⟩
                      · exact h.base.cvals p hp
                    dvals := by
                      intro p hp
                      rcases mem_dupdate hp with rfl | hp
                      · exact hdom2sub
                      · exact h.base.dvals p hp
                    dcol := by
                      intro p hp hcol
                      rcases mem_dupdate hp with rfl | hp
                      · exact hdom2ne
                      · by_cases hpv : p.1 = v
                        · have hpm : (v, p.2) ∈ domains := by
                            have hpm0 : (p.1, p.2) ∈ domains := by simpa using hp
                            rwa [hpv] at hpm0
                          have hlk := lookup_of_mem_nodup h.base.dnodup hpm
                          rw [hd] at hlk
                          rw [← Option.some.inj hlk]
                          exact List.ne_nil_of_mem hcmem
                        · rw [lookup_cinsert_ne _ _ hpv] at hcol
                          exact h.base.dcol p hp hcol
                    p3 := by
                      intro u0 v0 cu cv hcu hcv hadj
                      rcases lookup_cinsert_cases hcu with ⟨hu0v, hcux⟩ | ⟨hu0v, hcu⟩
                      · -- the new vertex is the source of the edge
                        rcases lookup_cinsert_cases hcv with ⟨hv0v, hcvx⟩ | ⟨hv0v, hcv⟩
                        · rw [hu0v, hv0v] at hadj
                          exact absurd hadj (hWF.2.2.2 v hv)
                        · rw [hu0v] at hadj
                          have hzw := hall v0 hadj
                          rw [hcux]
                          rcases hzw.2 with ⟨hst, hne⟩ | hv0u
                          · have hv0lt : v0 < g.n := h.base.colored_lt hcv
                            have hnotin := h.p2 v hv hvcn v0 cv hcv
                              ((hWF.2.2.1 v hv v0 hv0lt).mp hadj) (Or.inl ⟨hst, hne⟩)
                            rw [show domOf domains v = dom by
                              simp only [domOf, hd, Option.getD_some]] at hnotin
                            exact fun heq => hnotin (heq ▸ hx_mem)
                          · rw [hv0u] at hcv
                            have hcvc : cv = c := by
                              rw [h.ucol] at hcv
                              exact (Option.some.inj hcv).symm
                            rw [hcvc]
                            exact hxc
                      · rcases lookup_cinsert_cases hcv with ⟨hv0v, hcvx⟩ | ⟨hv0v, hcv⟩
                        · -- the new vertex is the target of the edge
                          rw [hv0v] at hadj
                          have hu0lt : u0 < g.n := h.base.colored_lt hcu
                          have hu0nb : u0 ∈ g.nbrs v := (hWF.2.2.1 u0 hu0lt v hv).mp hadj
                          have hzw := hall u0 hu0nb
                          rw [hcvx]
                          rcases hzw.2 with ⟨hst, hne⟩ | hu0u
                          · have hnotin := h.p2 v hv hvcn u0 cu hcu hadj (Or.inl ⟨hst, hne⟩)
                            rw [show domOf domains v = dom by
                              simp only [domOf, hd, Option.getD_some]] at hnotin
                            exact fun heq => (heq ▸ hnotin) hx_mem
                          · rw [hu0u] at hcu
                            have hcuc : cu = c := by
                              rw [h.ucol] at hcu
                              exact (Option.some.inj hcu).symm
                            rw [hcuc]
                            exact fun heq => hxc heq.symm
                        · exact h.base.p3 u0 v0 cu cv hcu hcv hadj }
                scol := by
                  intro w hw
                  rcases List.mem_cons.mp hw with rfl | hw
                  · rw [lookup_cinsert_self]
                    rfl
                  · have hws := h.scol w hw
                    have hwv : w ≠ v := by
                      intro hh
                      rw [hh, hvcn] at hws
                      simp at hws
                    rw [lookup_cinsert_ne _ _ hwv]
                    exact hws
                snodup := by
                  rw [List.nodup_cons]
                  refine ⟨?_, h.snodup⟩
                  intro hmem
                  have := h.scol v hmem
                  rw [hvcn] at this
                  simp at this
                ucol := by
                  rw [lookup_cinsert_ne _ _ huv]
                  exact h.ucol
                ustk := by
                  intro hmem
                  rcases List.mem_cons.mp hmem with hh | hh
                  · exact huv hh
                  · exact h.ustk hh
                nssub := hnssub2
                nsnd := hns2nd
                p1 := by
                  intro v0 hv0 hunc c2 h1 h2 hmiss
                  have hv0v : v0 ≠ v := by
                    intro hh
                    rw [hh, lookup_cinsert_self] at hunc
                    exact Option.noConfusion hunc
                  have hunc0 : List.lookup v0 colors = none := by
                    rwa [lookup_cinsert_ne _ _ hv0v] at hunc
                  have hdom0 : domOf (dupdate domains v (dom.filter (fun x => x != c))) v0 =
                      domOf domains v0 := by
                    simp [domOf, lookup_dupdate_ne _ _ hv0v]
                  rw [hdom0] at hmiss
                  obtain ⟨w, hw1, hw2, hw3⟩ := h.p1 v0 hv0 hunc0 c2 h1 h2 hmiss
                  have hwv : w ≠ v := by
                    intro hh
                    rw [hh, hvcn] at hw1
                    exact Option.noConfusion hw1
                  refine ⟨w, by rw [lookup_cinsert_ne _ _ hwv]; exact hw1, hw2, ?_⟩
                  rcases hw3 with ⟨hw3, hw4⟩ | ⟨rfl, hw5⟩
                  · refine Or.inl ⟨?_, hw4⟩
                    intro hmem
                    rcases List.mem_cons.mp hmem with hh | hh
                    · exact hwv hh
                    · exact hw3 hh
                  · exact Or.inr ⟨rfl, fun hh => hw5 (List.mem_cons_of_mem _ hh)⟩
                p2 := by
                  intro v0 hv0 hunc w c2 hw hn cond
                  have hv0v : v0 ≠ v := by
                    intro hh
                    rw [hh, lookup_cinsert_self] at hunc
                    exact Option.noConfusion hunc
                  have hunc0 : List.lookup v0 colors = none := by
                    rwa [lookup_cinsert_ne _ _ hv0v] at hunc
                  have hdom0 : domOf (dupdate domains v (dom.filter (fun x => x != c))) v0 =
                      domOf domains v0 := by
                    simp [domOf, lookup_dupdate_ne _ _ hv0v]
                  rw [hdom0]
                  have hwv : w ≠ v := by
                    intro hh
                    subst hh
                    rcases cond with ⟨hst, _⟩ | ⟨heq, _⟩
                    · exact hst (List.mem_cons_self _ _)
                    · have huc := h.ucol
                      rw [← heq, hvcn] at huc
                      exact Option.noConfusion huc
                  have hw0 : List.lookup w colors = some c2 := by
                    rwa [lookup_cinsert_ne _ _ hwv] at hw
                  rcases cond with ⟨hst, hne⟩ | ⟨rfl, hc4⟩
                  · exact h.p2 v0 hv0 hunc0 w c2 hw0 hn
                      (Or.inl ⟨fun hh => hst (List.mem_cons_of_mem _ hh), hne⟩)
                  · exact h.p2 v0 hv0 hunc0 w c2 hw0 hn (Or.inr ⟨rfl, by
                      intro hmem
                      rcases List.mem_cons.mp hmem with hh | hh
                      · exact hv0v hh
                      · exact hc4 hh⟩) }
            exact ⟨hstep.1, colorsSub_trans (colorsSub_cinsert _ hvcn) hstep.2⟩
          · -- plain removal: the domain just shrinks
            rw [scrub_cons_update hvcn hd hcmem hlen]
            apply ih
            exact
              { base :=
                  { dkeys := by rw [map_fst_dupdate]; exact h.base.dkeys
                    ckeys := h.base.ckeys
                    cnodup := h.base.cnodup
                    cvals := h.base.cvals
                    dvals := by
                      intro p hp
                      rcases mem_dupdate hp with rfl | hp
                      · exact (List.filter_sublist _).trans hdomsub
                      · exact h.base.dvals p hp
                    dcol := by
                      intro p hp hcol
                      rcases mem_dupdate hp with rfl | hp
                      · rw [hvcn] at hcol
                        simp at hcol
                      · exact h.base.dcol p hp hcol
                    p3 := h.base.p3 }
                scol := h.scol
                snodup := h.snodup
                ucol := h.ucol
                ustk := h.ustk
                nssub := hnssub2
                nsnd := hns2nd
                p1 := by
                  intro v0 hv0 hunc c2 h1 h2 hmiss
                  by_cases hv0v : v0 = v
                  · subst hv0v
                    rw [show domOf (dupdate domains v0 (dom.filter (fun x => x != c))) v0 =
                        dom.filter (fun x => x != c) by
                      simp [domOf, lookup_dupdate_self, hd]] at hmiss
                    by_cases hc2c : c2 = c
                    · subst hc2c
                      exact ⟨u, h.ucol, hvnb, Or.inr ⟨rfl, hvns⟩⟩
                    · have hmiss2 : c2 ∉ dom := by
                        intro hin
                        exact hmiss (List.mem_filter.mpr ⟨hin, by simpa using hc2c⟩)
                      obtain ⟨w, hw1, hw2, hw3⟩ := h.p1 v0 hv0 hunc c2 h1 h2
                        (by simp only [domOf, hd, Option.getD_some]; exact hmiss2)
                      refine ⟨w, hw1, hw2, ?_⟩
                      rcases hw3 with hw3 | ⟨rfl, hw5⟩
                      · exact Or.inl hw3
                      · exact absurd (List.mem_cons_self v0 ns2) hw5
                  · rw [show domOf (dupdate domains v (dom.filter (fun x => x != c))) v0 =
                        domOf domains v0 by
                      simp [domOf, lookup_dupdate_ne _ _ hv0v]] at hmiss
                    obtain ⟨w, hw1, hw2, hw3⟩ := h.p1 v0 hv0 hunc c2 h1 h2 hmiss
                    refine ⟨w, hw1, hw2, ?_⟩
                    rcases hw3 with hw3 | ⟨rfl, hw4⟩
                    · exact Or.inl hw3
                    · exact Or.inr ⟨rfl, fun hh => hw4 (List.mem_cons_of_mem _ hh)⟩
                p2 := by
                  intro v0 hv0 hunc w c2 hw hn cond
                  by_cases hv0v : v0 = v
                  · subst hv0v
                    rw [show domOf (dupdate domains v0 (dom.filter (fun x => x != c))) v0 =
                        dom.filter (fun x => x != c) by
                      simp [domOf, lookup_dupdate_self, hd]]
                    rcases cond with cond | ⟨rfl, _⟩
                    · have hnotin := h.p2 v0 hv0 hunc w c2 hw hn (Or.inl cond)
                      rw [show domOf domains v0 = dom by
                        simp only [domOf, hd, Option.getD_some]] at hnotin
                      intro hin
                      exact hnotin (List.mem_of_mem_filter hin)
                    · have hc2 : c2 = c := by
                        have huc := h.ucol
                        rw [hw] at huc
                        exact Option.some.inj huc
                      subst hc2
                      intro hin
                      have := (List.mem_filter.mp hin).2
                      simp at this
                  · rw [show domOf (dupdate domains v (dom.filter (fun x => x != c))) v0 =
                        domOf domains v0 by
                      simp [domOf, lookup_dupdate_ne _ _ hv0v]]
                    rcases cond with cond | ⟨rfl, hc4⟩
                    · exact h.p2 v0 hv0 hunc w c2 hw hn (Or.inl cond)
                    · exact h.p2 v0 hv0 hunc w c2 hw hn (Or.inr ⟨rfl, by
                        intro hmem
                        rcases List.mem_cons.mp hmem with hh | hh
                        · exact hv0v hh
                        · exact hc4 hh⟩) }
        · -- the popped color is not in the domain: nothing happens
          rw [scrub_cons_skip hvcn hd hcmem]
          apply ih
          exact
            { base := h.base
              scol := h.scol
              snodup := h.snodup
              ucol := h.ucol
              ustk := h.ustk
              nssub := hnssub2
              nsnd := hns2nd
              p1 := by
                intro v0 hv0 hunc c2 h1 h2 hmiss
                obtain ⟨w, hw1, hw2, hw3⟩ := h.p1 v0 hv0 hunc c2 h1 h2 hmiss
                refine ⟨w, hw1, hw2, ?_⟩
                rcases hw3 with hw3 | ⟨rfl, hw4⟩
                · exact Or.inl hw3
                · exact Or.inr ⟨rfl, fun hh => hw4 (List.mem_cons_of_mem _ hh)⟩
              p2 := by
                intro v0 hv0 hunc w c2 hw hn cond
                by_cases hv0v : v0 = v
                · subst hv0v
                  rcases cond with cond | ⟨rfl, _⟩
                  · exact h.p2 v0 hv0 hunc w c2 hw hn (Or.inl cond)
                  · have hc2 : c2 = c := by
                      have huc := h.ucol
                      rw [hw] at huc
                      exact Option.some.inj huc
                    subst hc2
                    rw [show domOf domains v0 = dom by
                      simp only [domOf, hd, Option.getD_some]]
                    exact hcmem
                · rcases cond with cond | ⟨rfl, hc4⟩
                  · exact h.p2 v0 hv0 hunc w c2 hw hn (Or.inl cond)
                  · exact h.p2 v0 hv0 hunc w c2 hw hn (Or.inr ⟨rfl, by
                      intro hmem
                      rcases List.mem_cons.mp hmem with hh | hh
                      · exact hv0v hh
                      · exact hc4 hh⟩) }

/-! ## Termination measure of the work list and the `propagate` invariant -/

theorem scrub_measure (c : Nat) :
    ∀ (ns : List Nat) (colors : CMap) (domains : DMap) (stack : List Nat),
      domTotal (scrub c ns colors domains stack).2.1 +
        (scrub c ns colors domains stack).2.2.length ≤ domTotal domains + stack.length := by
  intro ns
  induction ns with
  | nil => intro colors domains stack; exact le_refl _
  | cons v ns2 ih =>
    intro colors domains stack
    by_cases hvc : (List.lookup v colors).isSome = true
    · rw [scrub_cons_colored hvc]
      exact ih colors domains stack
    · have hvcn : List.lookup v colors = none := not_isSome_eq_none hvc
      cases hd : List.lookup v domains with
      | none =>
        rw [scrub_cons_none hvcn hd]
        exact ih colors domains stack
      | some dom =>
        by_cases hcmem : c ∈ dom
        · have hflt : (dom.filter (fun x => x != c)).length < dom.length := by
            rw [List.length_filter_lt_length_iff_exists]
            exact ⟨c, hcmem, by simp⟩
          have hup := domTotal_dupdate (dom.filter (fun x => x != c)) hd
          by_cases hlen : (dom.filter (fun x => x != c)).length = 1
          · rw [scrub_cons_force hvcn hd hcmem hlen]
            have hrec := ih (cinsert colors v ((dom.filter (fun x => x != c)).headD 0))
              (dupdate domains v (dom.filter (fun x => x != c))) (v :: stack)
            simp only [List.length_cons] at hrec ⊢
            omega
          · rw [scrub_cons_update hvcn hd hcmem hlen]
            have hrec := ih colors (dupdate domains v (dom.filter (fun x => x != c))) stack
            omega
        · rw [scrub_cons_skip hvcn hd hcmem]
          exact ih colors domains stack

theorem sinv_nil_dinv {g : WGraph} {mc u c : Nat} {stack : List Nat} {colors : CMap}
    {domains : DMap} (h : SInv g mc u c [] stack colors domains) :
    DInv g mc stack colors domains :=
  { base := h.base
    scol := h.scol
    snodup := h.snodup
    p1 := by
      intro v hv hunc c2 h1 h2 hmiss
      obtain ⟨w, hw1, hw2, hw3⟩ := h.p1 v hv hunc c2 h1 h2 hmiss
      refine ⟨w, hw1, hw2, ?_⟩
      rcases hw3 with ⟨hw3, _⟩ | ⟨rfl, _⟩
      · exact hw3
      · exact h.ustk
    p2 := by
      intro v hv hunc w c2 hw hn hns
      by_cases hwu : w = u
      · exact h.p2 v hv hunc w c2 hw hn (Or.inr ⟨hwu, List.not_mem_nil v⟩)
      · exact h.p2 v hv hunc w c2 hw hn (Or.inl ⟨hns, hwu⟩) }

theorem dinv_cons_sinv {g : WGraph} (hWF : g.WF) {mc u c : Nat} {rest : List Nat}
    {colors : CMap} {domains : DMap} (h : DInv g mc (u :: rest) colors domains)
    (hu : List.lookup u colors = some c) :
    SInv g mc u c (g.nbrs u) rest colors domains :=
  { base := h.base
    scol := fun w hw => h.scol w (List.mem_cons_of_mem _ hw)
    snodup := (List.nodup_cons.mp h.snodup).2
    ucol := hu
    ustk := (List.nodup_cons.mp h.snodup).1
    nssub := fun x hx => hx
    nsnd := hWF.1 u (h.base.colored_lt hu)
    p1 := by
      intro v hv hunc c2 h1 h2 hmiss
      obtain ⟨w, hw1, hw2, hw3⟩ := h.p1 v hv hunc c2 h1 h2 hmiss
      refine ⟨w, hw1, hw2, Or.inl ⟨?_, ?_⟩⟩
      · exact fun hh => hw3 (List.mem_cons_of_mem _ hh)
      · exact fun hh => hw3 (by rw [hh]; exact List.mem_cons_self _ _)
    p2 := by
      intro v hv hunc w c2 hw hn cond
      rcases cond with ⟨hst, hne⟩ | ⟨rfl, hnb⟩
      · refine h.p2 v hv hunc w c2 hw hn ?_
        intro hmem
        rcases List.mem_cons.mp hmem with hh | hh
        · exact hne hh
        · exact hst hh
      · exact absurd hn hnb }

theorem propagateFuel_dinv {g : WGraph} (hWF : g.WF) {mc : Nat} (hmc : maxDegree g < mc) :
    ∀ (fuel : Nat) (stack : List Nat) (colors : CMap) (domains : DMap),
      DInv g mc stack colors domains →
      domTotal domains + stack.length < fuel →
      DInv g mc [] (propagateFuel g fuel stack colors domains).1
          (propagateFuel g fuel stack colors domains).2 ∧
        colorsSub colors (propagateFuel g fuel stack colors domains).1 := by
  intro fuel
  induction fuel with
  | zero =>
    intro stack colors domains _ hmeas
    omega
  | succ fuel ih =>
    intro stack colors domains hinv hmeas
    cases stack with
    | nil => exact ⟨hinv, fun k c2 hk => hk⟩
    | cons u rest =>
      cases hu : List.lookup u colors with
      | none =>
        have := hinv.scol u (List.mem_cons_self _ _)
        rw [hu] at this
        simp at this
      | some c =>
        have hsinv := dinv_cons_sinv hWF hinv hu
        have hscrub := scrub_sinv hWF hmc (g.nbrs u) colors domains rest hsinv
        have hmeas2 := scrub_measure c (g.nbrs u) colors domains rest
        simp only [propagateFuel, hu]
        have hrec := ih _ _ _ (sinv_nil_dinv hscrub.1)
          (by simp only [List.length_cons] at hmeas; omega)
        exact ⟨hrec.1, colorsSub_trans hscrub.2 hrec.2⟩

theorem propagate_dinv {g : WGraph} (hWF : g.WF) {mc : Nat} (hmc : maxDegree g < mc)
    {stack : List Nat} {colors : CMap} {domains : DMap}
    (hinv : DInv g mc stack colors domains) :
    DInv g mc [] (propagate g stack colors domains).1
        (propagate g stack colors domains).2 ∧
      colorsSub colors (propagate g stack colors domains).1 :=
  propagateFuel_dinv hWF hmc _ _ _ _ hinv (by omega)

theorem colorsSub_length {m1 m2 : CMap} (h : colorsSub m1 m2)
    (h1 : (m1.map Prod.fst).Nodup) (h2 : (m2.map Prod.fst).Nodup) :
    m1.length ≤ m2.length := by
  have hsub : ∀ k, k ∈ m1.map Prod.fst → k ∈ m2.map Prod.fst := by
    intro k hk
    have := lookup_isSome_iff.mpr hk
    rcases Option.isSome_iff_exists.mp this with ⟨c, hc⟩
    exact lookup_isSome_iff.mp (by rw [h k c hc]; rfl)
  calc m1.length = (m1.map Prod.fst).length := (List.length_map _ _).symm
    _ = (m1.map Prod.fst).toFinset.card := (List.toFinset_card_of_nodup h1).symm
    _ ≤ (m2.map Prod.fst).toFinset.card := Finset.card_le_card
        (fun k hk => List.mem_toFinset.mpr (hsub k (List.mem_toFinset.mp hk)))
    _ = (m2.map Prod.fst).length := List.toFinset_card_of_nodup h2
    _ = m2.length := List.length_map _ _

/-! ## Driver-level lemmas -/

/-- Under the invariant, the domain of an uncolored vertex is never empty:
the missing colors inject into the processed colored neighbors, of which
there are at most `maxDegree < mc` many. -/
theorem dinv_uncolored_nonempty {g : WGraph} (hWF : g.WF) {mc : Nat}
    (hmc : maxDegree g < mc) {stack : List Nat} {colors : CMap} {domains : DMap}
    (hinv : DInv g mc stack colors domains) {v : Nat} (hv : v < g.n)
    (hunc : List.lookup v colors = none) : domOf domains v ≠ [] := by
  have hlarge := uncolored_dom_large hWF hinv.base hv
    (fun c2 h1 h2 hmiss => by
      obtain ⟨w, hw1, hw2, _⟩ := hinv.p1 v hv hunc c2 h1 h2 hmiss
      exact ⟨w, hw1, hw2⟩)
  have hdeg : (g.nbrs v).length ≤ maxDegree g := deg_le_maxDegree g hv
  rw [← List.length_pos]
  omega

/-- Under the invariant, no domain at all is ever empty. -/
theorem dinv_dom_nonempty {g : WGraph} (hWF : g.WF) {mc : Nat}
    (hmc : maxDegree g < mc) {stack : List Nat} {colors : CMap} {domains : DMap}
    (hinv : DInv g mc stack colors domains) {v : Nat} (hv : v < g.n) :
    domOf domains v ≠ [] := by
  cases hc : List.lookup v colors with
  | none => exact dinv_uncolored_nonempty hWF hmc hinv hv hc
  | some c =>
    exact hinv.base.dcol (v, domOf domains v) (lookup_mem (hinv.base.lookup_dom_eq hv))
      (by rw [hc]; rfl)

/-- The state just after the seed vertex is fixed to color 1 satisfies the
invariant, with the seed as the pending work list. -/
theorem init_dinv {g : WGraph} (hWF : g.WF) {mc : Nat} (hmc1 : 1 ≤ mc)
    {start : Nat} (hstart : start < g.n) :
    DInv g mc [start] (cinsert [] start 1)
      ((List.range g.n).map (fun v => (v, List.range' 1 mc))) := by
  have hdkeys : (((List.range g.n).map (fun v => (v, List.range' 1 mc))).map Prod.fst)
      = List.range g.n := by
    rw [List.map_map]
    exact List.map_id _
  have hlkinit : ∀ v, v < g.n →
      List.lookup v ((List.range g.n).map (fun v => (v, List.range' 1 mc)))
        = some (List.range' 1 mc) := by
    intro v hv
    exact lookup_of_mem_nodup (by rw [hdkeys]; exact List.nodup_range g.n)
      (List.mem_map.mpr ⟨v, List.mem_range.mpr hv, rfl⟩)
  have hcsingle : ∀ {k cu : Nat}, List.lookup k (cinsert [] start 1) = some cu →
      k = start ∧ cu = 1 := by
    intro k cu hk
    rcases lookup_cinsert_cases hk with ⟨h1, h2⟩ | ⟨_, h2⟩
    · exact ⟨h1, h2⟩
    · simp at h2
  exact
    { base :=
        { dkeys := hdkeys
          ckeys := by
            intro p hp
            rcases mem_cinsert hp with rfl | hp
            · exact hstart
            · simp at hp
          cnodup := by
            show ((cinsert [] start 1).map Prod.fst).Nodup
            exact List.nodup_singleton start
          cvals := by
            intro p hp
            rcases mem_cinsert hp with rfl | hp
            · exact ⟨le_refl 1, hmc1⟩
            · simp at hp
          dvals := by
            intro p hp
            rcases List.mem_map.mp hp with ⟨v, _, rfl⟩
            exact List.Sublist.refl _
          dcol := by
            intro p hp _
            rcases List.mem_map.mp hp with ⟨v, _, rfl⟩
            exact List.ne_nil_of_length_pos (by rw [List.length_range']; omega)
          p3 := by
            intro u v cu cv hcu hcv hadj
            obtain ⟨rfl, _⟩ := hcsingle hcu
            obtain ⟨hv, _⟩ := hcsingle hcv
            rw [hv] at hadj
            exact absurd hadj (hWF.2.2.2 u hstart) }
      scol := by
        intro w hw
        rw [List.mem_singleton] at hw
        subst hw
        rw [lookup_cinsert_self]
        rfl
      snodup := List.nodup_singleton start
      p1 := by
        intro v hv hunc c2 h1 h2 hmiss
        rw [domOf, hlkinit v hv] at hmiss
        have hmem : c2 ∈ List.range' 1 mc := List.mem_range'_1.mpr ⟨h1, by omega⟩
        exact absurd hmem (by simpa using hmiss)
      p2 := by
        intro v hv hunc w c2 hw hn hns
        obtain ⟨rfl, _⟩ := hcsingle hw
        exact absurd (List.mem_singleton.mpr rfl) hns }

/-- One driver fix re-establishes the invariant with the fixed vertex as
the pending work list for the subsequent propagation. -/
theorem driver_step_dinv {g : WGraph} (hWF : g.WF) {mc : Nat}
    {colors : CMap} {domains : DMap} (hinv : DInv g mc [] colors domains)
    {v : Nat} (hv : v < g.n) (hunc : List.lookup v colors = none)
    {dom : List Nat} (hdom : List.lookup v domains = some dom) (hne : dom ≠ []) :
    DInv g mc [v] (cinsert colors v (dom.headD 0)) domains := by
  have hx : dom.headD 0 ∈ dom := headD_mem hne 0
  have hdomsub : dom.Sublist (List.range' 1 mc) := hinv.base.dvals (v, dom) (lookup_mem hdom)
  have hxr := List.mem_range'_1.mp (hdomsub.subset hx)
  have hvkeys : v ∉ colors.map Prod.fst := lookup_eq_none_iff.mp hunc
  exact
    { base :=
        { dkeys := hinv.base.dkeys
          ckeys := by
            intro p hp
            rcases mem_cinsert hp with rfl | hp
            · exact hv
            · exact hinv.base.ckeys p hp
          cnodup := by
            rw [map_fst_cinsert_not_mem _ hvkeys]
            refine List.Nodup.append hinv.base.cnodup (List.nodup_singleton v) ?_
            intro a ha hb
            rw [List.mem_singleton] at hb
            subst hb
            exact hvkeys ha
          cvals := by
            intro p hp
            rcases mem_cinsert hp with rfl | hp
            · exact ⟨hxr.1, by omega⟩
            · exact hinv.base.cvals p hp
          dvals := hinv.base.dvals
          dcol := by
            intro p hp hcol
            by_cases hpv : p.1 = v
            · have hpm : (v, p.2) ∈ domains := by
                have hpm0 : (p.1, p.2) ∈ domains := by simpa using hp
                rwa [hpv] at hpm0
              have hlk := lookup_of_mem_nodup hinv.base.dnodup hpm
              rw [hdom] at hlk
              rw [← Option.some.inj hlk]
              exact hne
            · rw [lookup_cinsert_ne _ _ hpv] at hcol
              exact hinv.base.dcol p hp hcol
          p3 := by
            intro u0 v0 cu cv hcu hcv hadj
            rcases lookup_cinsert_cases hcu with ⟨hu0v, hcux⟩ | ⟨hu0v, hcu⟩
            · rcases lookup_cinsert_cases hcv with ⟨hv0v, hcvx⟩ | ⟨hv0v, hcv⟩
              · rw [hu0v, hv0v] at hadj
                exact absurd hadj (hWF.2.2.2 v hv)
              · rw [hu0v] at hadj
                have hv0lt : v0 < g.n := hinv.base.colored_lt hcv
                have hnotin := hinv.p2 v hv hunc v0 cv hcv
                  ((hWF.2.2.1 v hv v0 hv0lt).mp hadj) (List.not_mem_nil v0)
                rw [show domOf domains v = dom by
                  simp only [domOf, hdom, Option.getD_some]] at hnotin
                rw [hcux]
                exact fun heq => hnotin (heq ▸ hx)
            · rcases lookup_cinsert_cases hcv with ⟨hv0v, hcvx⟩ | ⟨hv0v, hcv⟩
              · rw [hv0v] at hadj
                have hnotin := hinv.p2 v hv hunc u0 cu hcu hadj (List.not_mem_nil u0)
                rw [show domOf domains v = dom by
                  simp only [domOf, hdom, Option.getD_some]] at hnotin
                rw [hcvx]
                exact fun heq => (heq ▸ hnotin) hx
              · exact hinv.base.p3 u0 v0 cu cv hcu hcv hadj }
      scol := by
        intro w hw
        rw [List.mem_singleton] at hw
        subst hw
        rw [lookup_cinsert_self]
        rfl
      snodup := List.nodup_singleton v
      p1 := by
        intro v0 hv0 hunc2 c2 h1 h2 hmiss
        have hv0v : v0 ≠ v := by
          intro hh
          rw [hh, lookup_cinsert_self] at hunc2
          exact Option.noConfusion hunc2
        have hunc0 : List.lookup v0 colors = none := by
          rwa [lookup_cinsert_ne _ _ hv0v] at hunc2
        obtain ⟨w, hw1, hw2, _⟩ := hinv.p1 v0 hv0 hunc0 c2 h1 h2 hmiss
        have hwv : w ≠ v := by
          intro hh
          rw [hh, hunc] at hw1
          exact Option.noConfusion hw1
        refine ⟨w, by rw [lookup_cinsert_ne _ _ hwv]; exact hw1, hw2, ?_⟩
        intro hmem
        rw [List.mem_singleton] at hmem
        exact hwv hmem
      p2 := by
        intro v0 hv0 hunc2 w c2 hw hn hns
        have hv0v : v0 ≠ v := by
          intro hh
          rw [hh, lookup_cinsert_self] at hunc2
          exact Option.noConfusion hunc2
        have hunc0 : List.lookup v0 colors = none := by
          rwa [lookup_cinsert_ne _ _ hv0v] at hunc2
        have hwv : w ≠ v := by
          intro hh
          exact hns (by rw [hh]; exact List.mem_cons_self _ _)
        have hw0 : List.lookup w colors = some c2 := by
          rwa [lookup_cinsert_ne _ _ hwv] at hw
        exact hinv.p2 v0 hv0 hunc0 w c2 hw0 hn (List.not_mem_nil w) }

theorem nodup_subset_length {l1 l2 : List Nat} (h1 : l1.Nodup) (hsub : ∀ x ∈ l1, x ∈ l2) :
    l1.length ≤ l2.length := by
  calc l1.length = l1.toFinset.card := (List.toFinset_card_of_nodup h1).symm
    _ ≤ l2.toFinset.card := Finset.card_le_card
        (fun k hk => List.mem_toFinset.mpr (hsub k (List.mem_toFinset.mp hk)))
    _ ≤ l2.length := List.toFinset_card_le _


/-- The selection made by the driver: an uncolored vertex with the
smallest domain, ties broken by the smallest dense index.  Every uncolored
vertex has a nonempty domain under the invariant, so no selected key is
the `usize::MAX` sentinel substituted for entropy-zero vertices. -/
theorem driver_select {g : WGraph} (hWF : g.WF) {mc : Nat} (hmc : maxDegree g < mc)
    {colors : CMap} {domains : DMap} (hinv : DInv g mc [] colors domains)
    (hlt : colors.length < g.n) :
    ∃ v dom, List.lookup v colors = none ∧ v < g.n ∧
      List.lookup v domains = some dom ∧ dom ≠ [] ∧
      (∀ w, w < g.n → List.lookup w colors = none →
        dom.length ≤ (domOf domains w).length) ∧
      (∀ w, w < g.n → List.lookup w colors = none →
        (domOf domains w).length = dom.length → v ≤ w) ∧
      minByKeyFirst (fun v => let e := entropy v colors domains
          if e = 0 then USIZE_MAX else e)
        ((List.range g.n).filter (fun v => !(List.lookup v colors).isSome)) = some v := by
  have hkey : ∀ w, w < g.n → List.lookup w colors = none →
      (let e := entropy w colors domains
        if e = 0 then USIZE_MAX else e) = (domOf domains w).length := by
    intro w hw hunc
    have hne := dinv_uncolored_nonempty hWF hmc hinv hw hunc
    have hsome := hinv.base.lookup_dom_eq hw
    have hlen0 : (domOf domains w).length ≠ 0 := by
      intro hh
      exact hne (List.length_eq_zero.mp hh)
    have he : entropy w colors domains = (domOf domains w).length := by
      simp [entropy, hunc, hsome]
    simp only [he]
    rw [if_neg hlen0]
  have hpair : List.Pairwise (· < ·)
      ((List.range g.n).filter (fun v => !(List.lookup v colors).isSome)) :=
    List.Pairwise.filter _ (List.pairwise_lt_range g.n)
  have hnonnil : (List.range g.n).filter (fun v => !(List.lookup v colors).isSome) ≠ [] := by
    intro hnil
    rw [List.filter_eq_nil_iff] at hnil
    have hsub : ∀ x ∈ List.range g.n, x ∈ colors.map Prod.fst := by
      intro x hx
      have hnx := hnil x hx
      have hsome : (List.lookup x colors).isSome = true := by
        by_contra hns
        exact hnx (by rw [not_isSome_eq_none hns]; rfl)
      exact lookup_isSome_iff.mp hsome
    have hlen := nodup_subset_length (List.nodup_range g.n) hsub
    rw [List.length_range, List.length_map] at hlen
    omega
  obtain ⟨v, hsel⟩ := minByKeyFirst_ne_nil hnonnil
  obtain ⟨hvmem, hmin, htie⟩ := minByKeyFirst_spec hpair hsel
  rw [List.mem_filter, List.mem_range] at hvmem
  have hv : v < g.n := hvmem.1
  have hfalse : (List.lookup v colors).isSome = false := by simpa using hvmem.2
  have hunc : List.lookup v colors = none := not_isSome_eq_none (by rw [hfalse]; simp)
  have hsome := hinv.base.lookup_dom_eq hv
  have hne := dinv_uncolored_nonempty hWF hmc hinv hv hunc
  refine ⟨v, domOf domains v, hunc, hv, hsome, hne, ?_, ?_, hsel⟩
  · intro w hw hwunc
    have hwmem : w ∈ (List.range g.n).filter (fun v => !(List.lookup v colors).isSome) :=
      List.mem_filter.mpr ⟨List.mem_range.mpr hw, by simp [hwunc]⟩
    have hle := hmin w hwmem
    rw [hkey v hv hunc, hkey w hw hwunc] at hle
    exact hle
  · intro w hw hwunc heq
    have hwmem : w ∈ (List.range g.n).filter (fun v => !(List.lookup v colors).isSome) :=
      List.mem_filter.mpr ⟨List.mem_range.mpr hw, by simp [hwunc]⟩
    apply htie w hwmem
    rw [hkey v hv hunc, hkey w hw hwunc]
    exact heq

/-- Unfolding of one driver iteration that fixes vertex `v`. -/
theorem colorLoop_step {g : WGraph} (fuel mc : Nat) {colors : CMap} {domains : DMap}
    {v : Nat} {dom : List Nat} (hlt : colors.length < g.n)
    (hsel : minByKeyFirst (fun v => let e := entropy v colors domains
        if e = 0 then USIZE_MAX else e)
      ((List.range g.n).filter (fun v => !(List.lookup v colors).isSome)) = some v)
    (hdom : List.lookup v domains = some dom) (hne : dom ≠ []) :
    colorLoop g (fuel + 1) mc colors domains =
      colorLoop g fuel mc (propagate g [v] (cinsert colors v (dom.headD 0)) domains).1
        (propagate g [v] (cinsert colors v (dom.headD 0)) domains).2 := by
  have hie : dom.isEmpty = false := by
    cases dom with
    | nil => exact absurd rfl hne
    | cons a t => rfl
  simp only [colorLoop, if_pos hlt, hsel, hdom, hie, Bool.false_eq_true, if_false]

/-- Totality of the driver loop: under the invariant, each iteration fixes
at least one further vertex, so fuel `g.n + 1` always suffices and the
`max_colors` escalation (as well as the empty-domain skip) is never
taken. -/
theorem colorLoop_total {g : WGraph} (hWF : g.WF) {mc : Nat} (hmc : maxDegree g < mc) :
    ∀ (fuel : Nat) (colors : CMap) (domains : DMap),
      DInv g mc [] colors domains →
      g.n ≤ fuel + colors.length →
      ∃ m, colorLoop g fuel mc colors domains = some (m, mc) ∧
        g.n ≤ m.length ∧ (∀ p ∈ m, p.1 < g.n) ∧ (m.map Prod.fst).Nodup ∧
        (∀ p ∈ m, 1 ≤ p.2 ∧ p.2 ≤ mc) ∧
        (∀ u v cu cv, List.lookup u m = some cu → List.lookup v m = some cv →
          v ∈ g.nbrs u → cu ≠ cv) ∧
        colorsSub colors m := by
  intro fuel
  induction fuel with
  | zero =>
    intro colors domains hinv hfuel
    have hnlt : ¬ colors.length < g.n := by omega
    refine ⟨colors, ?_, by omega, hinv.base.ckeys, hinv.base.cnodup, hinv.base.cvals,
      hinv.base.p3, fun k c2 hk => hk⟩
    simp [colorLoop, hnlt]
  | succ fuel ih =>
    intro colors domains hinv hfuel
    by_cases hlt : colors.length < g.n
    · obtain ⟨v, dom, hunc, hv, hdom, hdomne, _, _, hsel⟩ :=
        driver_select hWF hmc hinv hlt
      have hstep := colorLoop_step fuel mc hlt hsel hdom hdomne
      have hsdinv := driver_step_dinv hWF hinv hv hunc hdom hdomne
      have hprop := propagate_dinv hWF hmc hsdinv
      have hlen2 : (cinsert colors v (dom.headD 0)).length = colors.length + 1 :=
        length_cinsert_not_mem _ (lookup_eq_none_iff.mp hunc)
      have hlen3 : (cinsert colors v (dom.headD 0)).length ≤
          (propagate g [v] (cinsert colors v (dom.headD 0)) domains).1.length :=
        colorsSub_length hprop.2 hsdinv.base.cnodup hprop.1.base.cnodup
      obtain ⟨m, hm, hrest⟩ := ih _ _ hprop.1 (by omega)
      refine ⟨m, ?_, hrest.1, hrest.2.1, hrest.2.2.1, hrest.2.2.2.1, hrest.2.2.2.2.1, ?_⟩
      · rw [hstep]
        exact hm
      · exact colorsSub_trans (colorsSub_cinsert _ hunc)
          (colorsSub_trans hprop.2 hrest.2.2.2.2.2)
    · refine ⟨colors, ?_, by omega, hinv.base.ckeys, hinv.base.cnodup, hinv.base.cvals,
        hinv.base.p3, fun k c2 hk => hk⟩
      simp [colorLoop, hlt]

/-! ## The complete run on a well-formed nonempty graph -/

theorem wfcColorFull_run {g : WGraph} (hWF : g.WF) (hn : 0 < g.n) :
    ∃ start m, maxByKeyLast (fun v => (g.nbrs v).length) (List.range g.n) = some start ∧
      start < g.n ∧
      (∀ w, w < g.n → (g.nbrs w).length ≤ (g.nbrs start).length) ∧
      (∀ w, w < g.n → (g.nbrs w).length = (g.nbrs start).length → w ≤ start) ∧
      wfcColorFull g = some (m, maxDegree g + 1) ∧
      g.n ≤ m.length ∧ (∀ p ∈ m, p.1 < g.n) ∧ (m.map Prod.fst).Nodup ∧
      (∀ p ∈ m, 1 ≤ p.2 ∧ p.2 ≤ maxDegree g + 1) ∧
      (∀ u v cu cv, List.lookup u m = some cu → List.lookup v m = some cv →
        v ∈ g.nbrs u → cu ≠ cv) ∧
      List.lookup start m = some 1 := by
  have hne : List.range g.n ≠ [] := by
    intro hh
    have hl := List.length_range g.n
    rw [hh] at hl
    simp at hl
    omega
  obtain ⟨start, hsel⟩ := maxByKeyLast_ne_nil hne
  obtain ⟨hmem, hmax, htie⟩ := maxByKeyLast_spec (List.pairwise_lt_range g.n) hsel
  have hstart : start < g.n := List.mem_range.mp hmem
  have hmc : maxDegree g < maxDegree g + 1 := Nat.lt_succ_self _
  have hinit := init_dinv hWF (show 1 ≤ maxDegree g + 1 by omega) hstart
  have hprop := propagate_dinv hWF hmc hinit
  have hstart1 : List.lookup start (propagate g [start] (cinsert [] start 1)
      ((List.range g.n).map (fun v => (v, List.range' 1 (maxDegree g + 1))))).1 = some 1 :=
    hprop.2 start 1 (lookup_cinsert_self [] start 1)
  obtain ⟨m, hm, hlen, hkeys, hnodup, hvals, hp3, hsub⟩ :=
    colorLoop_total hWF hmc (g.n + 1) _ _ hprop.1 (by omega)
  refine ⟨start, m, hsel, hstart, ?_, ?_, ?_, hlen, hkeys, hnodup, hvals, hp3,
    hsub start 1 hstart1⟩
  · intro w hw
    exact hmax w (List.mem_range.mpr hw)
  · intro w hw
    exact htie w (List.mem_range.mpr hw)
  · simp only [wfcColorFull, hsel]
    exact hm

/-! ## Concrete graphs used by the witnesses and counterexamples -/

/-- The empty graph. -/
def emptyG : WGraph := ⟨0, fun _ => []⟩

/-- The path `0 - 1`; both vertices have degree 1. -/
def pathG : WGraph := ⟨2, fun v => match v with | 0 => [1] | 1 => [0] | _ => []⟩

/-- The triangle again, with the neighbor function written differently. -/
def triG2 : WGraph :=
  ⟨3, fun v => if v = 0 then [1, 2] else if v = 1 then [0, 2] else if v = 2 then [0, 1] else []⟩

/-- A single isolated vertex, used to exhibit a driver state whose selected
vertex has an empty domain. -/
def stuckG : WGraph := ⟨1, fun _ => []⟩

theorem triG_WF : triG.WF := by
  refine ⟨?_, ?_, ?_, ?_⟩ <;> decide

theorem pathG_WF : pathG.WF := by
  refine ⟨?_, ?_, ?_, ?_⟩ <;> decide

/-! ## The claims -/

/-- C1: for every finite undirected graph on which `wfc_color` returns, the
returned coloring is valid: the endpoints of every edge receive different
colors. -/
theorem wfc_color_valid {g : WGraph} (hWF : g.WF) {m : CMap}
    (hrun : wfcColor g = some m) {u v cu cv : Nat}
    (hadj : v ∈ g.nbrs u) (hcu : List.lookup u m = some cu)
    (hcv : List.lookup v m = some cv) : cu ≠ cv := by
  by_cases hn : 0 < g.n
  · obtain ⟨start, m0, hsel, hstart, hmax, htie, hfull, hlen, hkeys, hnodup, hvals, hp3, hs1⟩ :=
      wfcColorFull_run hWF hn
    rw [wfcColor, hfull] at hrun
    simp at hrun
    rw [← hrun] at hcu hcv
    exact hp3 u v cu cv hcu hcv hadj
  · simp [wfcColor, wfcColorFull, maxByKeyLast, show g.n = 0 by omega] at hrun

theorem wfc_color_valid_witness : (2 : Nat) ≠ 3 :=
  wfc_color_valid triG_WF
    (show wfcColor triG = some [(2, 1), (0, 2), (1, 3)] by decide)
    (show (1 : Nat) ∈ triG.nbrs 0 by decide)
    (show List.lookup 0 [(2, 1), (0, 2), (1, 3)] = some 2 by decide)
    (show List.lookup 1 [(2, 1), (0, 2), (1, 3)] = some 3 by decide)

/-- C2 counterexample: on the empty graph `wfc_color` does not return a
coloring: the seed selection `max_by_key(..).unwrap()` panics on the empty
vertex range (modelled by `none`), contradicting totality over any finite
simple graph including the empty one. -/
theorem wfc_color_empty_graph_panics : wfcColor emptyG = none := by decide

/-- C2 (amended): `wfc_color` is total over any finite well-formed simple
graph with at least one vertex: it always returns some coloring. -/
theorem wfc_color_total_nonempty {g : WGraph} (hWF : g.WF) (hn : 0 < g.n) :
    ∃ m, wfcColor g = some m := by
  obtain ⟨start, m, hsel, hstart, hmax, htie, hfull, hlen, hkeys, hnodup, hvals, hp3, hs1⟩ :=
    wfcColorFull_run hWF hn
  refine ⟨m, ?_⟩
  rw [wfcColor, hfull]
  rfl

theorem wfc_color_total_nonempty_witness : ∃ m, wfcColor triG = some m :=
  wfc_color_total_nonempty triG_WF (show 0 < triG.n by decide)

/-- C3: the returned mapping is complete and tight: it has an entry exactly
for the vertices enumerable through the dense index range. -/
theorem wfc_color_complete {g : WGraph} (hWF : g.WF) {m : CMap}
    (hrun : wfcColor g = some m) :
    ∀ v, (List.lookup v m).isSome = true ↔ v < g.n := by
  by_cases hn : 0 < g.n
  · obtain ⟨start, m0, hsel, hstart, hmax, htie, hfull, hlen, hkeys, hnodup, hvals, hp3, hs1⟩ :=
      wfcColorFull_run hWF hn
    rw [wfcColor, hfull] at hrun
    simp at hrun
    rw [← hrun]
    intro v
    rw [lookup_isSome_iff]
    constructor
    · intro hv
      rcases List.mem_map.mp hv with ⟨p, hp, rfl⟩
      exact hkeys p hp
    · intro hv
      have hsubF : (m0.map Prod.fst).toFinset ⊆ Finset.range g.n := by
        intro k hk
        rcases List.mem_map.mp (List.mem_toFinset.mp hk) with ⟨p, hp, rfl⟩
        exact Finset.mem_range.mpr (hkeys p hp)
      have hFeq : (m0.map Prod.fst).toFinset = Finset.range g.n := by
        refine Finset.eq_of_subset_of_card_le hsubF ?_
        rw [Finset.card_range, List.toFinset_card_of_nodup hnodup, List.length_map]
        omega
      have : v ∈ (m0.map Prod.fst).toFinset := by
        rw [hFeq]
        exact Finset.mem_range.mpr hv
      exact List.mem_toFinset.mp this
  · simp [wfcColor, wfcColorFull, maxByKeyLast, show g.n = 0 by omega] at hrun

theorem wfc_color_complete_witness :
    ((List.lookup 1 [(2, 1), (0, 2), (1, 3)]).isSome = true ↔ 1 < triG.n) ∧
      ((List.lookup 7 [(2, 1), (0, 2), (1, 3)]).isSome = true ↔ 7 < triG.n) :=
  ⟨wfc_color_complete triG_WF
      (show wfcColor triG = some [(2, 1), (0, 2), (1, 3)] by decide) 1,
    wfc_color_complete triG_WF
      (show wfcColor triG = some [(2, 1), (0, 2), (1, 3)] by decide) 7⟩

/-- C4: after `propagate` returns (from the seed step or from a driver fix,
both of which establish the invariant), the domain of every uncolored
vertex contains no color assigned to any of its already-fixed
neighbors. -/
theorem propagate_no_fixed_neighbor_color {g : WGraph} (hWF : g.WF) {mc : Nat}
    (hmc : maxDegree g < mc) {stack : List Nat} {colors : CMap} {domains : DMap}
    (hinv : DInv g mc stack colors domains) :
    ∀ v, v < g.n →
      List.lookup v (propagate g stack colors domains).1 = none →
      ∀ u cu, List.lookup u (propagate g stack colors domains).1 = some cu →
        u ∈ g.nbrs v →
        cu ∉ (List.lookup v (propagate g stack colors domains).2).getD [] := by
  intro v hv hunc u cu hu hadj
  have hprop := propagate_dinv hWF hmc hinv
  have hult : u < g.n := hprop.1.base.colored_lt hu
  have hadj2 : v ∈ g.nbrs u := (hWF.2.2.1 v hv u hult).mp hadj
  exact hprop.1.p2 v hv hunc u cu hu hadj2 (List.not_mem_nil u)

theorem propagate_no_fixed_neighbor_color_witness :
    (1 : Nat) ∉ (List.lookup 0 (propagate triG [2] (cinsert [] 2 1)
      ((List.range triG.n).map (fun v => (v, List.range' 1 3)))).2).getD [] :=
  propagate_no_fixed_neighbor_color triG_WF
    (show maxDegree triG < 3 by decide)
    (init_dinv triG_WF (show (1 : Nat) ≤ 3 by decide)
      (show (2 : Nat) < triG.n by decide))
    0 (by decide)
    (show List.lookup 0 (propagate triG [2] (cinsert [] 2 1)
      ((List.range triG.n).map (fun v => (v, List.range' 1 3)))).1 = none by decide)
    2 1
    (show List.lookup 2 (propagate triG [2] (cinsert [] 2 1)
      ((List.range triG.n).map (fun v => (v, List.range' 1 3)))).1 = some 1 by decide)
    (show (2 : Nat) ∈ triG.nbrs 0 by decide)

/-- C5 counterexample: a driver state over `stuckG` in which the selected
uncolored vertex (vertex 0) has an empty domain.  Were the claim true, the
driver would increment `max_colors` to 2, reset the state, and — with the
ample fuel 9 — return some coloring; instead the `if` guards skip every
action, the loop re-enters with the state unchanged, no progress is ever
made and the run exhausts any amount of fuel (the Rust loop never
terminates). -/
theorem colorLoop_empty_domain_stuck : colorLoop stuckG 9 1 [] [(0, [])] = none := by
  decide

/-- C5 (amended): whenever the selected uncolored vertex has an empty
domain, the driver leaves `max_colors`, `colors` and `domains` all
unchanged and merely re-enters the selection loop: no escalation of
`max_colors` and no restart occur (on well-formed graphs this situation is
unreachable, since domains of uncolored vertices are never empty). -/
theorem colorLoop_empty_domain_step {g : WGraph} (fuel mc : Nat) {colors : CMap}
    {domains : DMap} {v : Nat} (hlt : colors.length < g.n)
    (hsel : minByKeyFirst (fun v => let e := entropy v colors domains
        if e = 0 then USIZE_MAX else e)
      ((List.range g.n).filter (fun v => !(List.lookup v colors).isSome)) = some v)
    (hdom : List.lookup v domains = some []) :
    colorLoop g (fuel + 1) mc colors domains = colorLoop g fuel mc colors domains := by
  simp only [colorLoop, if_pos hlt, hsel, hdom, List.isEmpty_nil, if_true]

theorem colorLoop_empty_domain_step_witness :
    colorLoop stuckG 1 1 [] [(0, [])] = colorLoop stuckG 0 1 [] [(0, [])] :=
  colorLoop_empty_domain_step 0 1 (by decide)
    (show minByKeyFirst (fun v => let e := entropy v [] [(0, [])]
        if e = 0 then USIZE_MAX else e)
      ((List.range stuckG.n).filter (fun v => !(List.lookup v ([] : CMap)).isSome))
        = some 0 by decide)
    (show List.lookup 0 [(0, ([] : List Nat))] = some [] by decide)

/-- C6 counterexample: on the path `0 - 1` both vertices have the maximal
degree 1, yet the returned coloring fixes vertex 1 (the LAST max-degree
vertex in enumeration order) to color 1 and vertex 0 to color 2.  Had the
seed been the FIRST max-degree vertex in index order, vertex 0 would have
been the one fixed unconditionally to color 1. -/
theorem wfc_color_seed_not_first :
    (pathG.nbrs 0).length = (pathG.nbrs 1).length ∧
      wfcColor pathG = some [(1, 1), (0, 2)] ∧
      List.lookup 0 [(1, 1), (0, 2)] = some 2 := by
  decide

/-- C6 (amended): in every run on a well-formed nonempty graph the seed is
the vertex of globally maximum degree with ties broken by taking the LAST
such vertex in enumeration order over the dense index range, and it is
fixed unconditionally to color 1 (which it keeps in the returned
coloring). -/
theorem wfc_color_seed_last_max_degree {g : WGraph} (hWF : g.WF) (hn : 0 < g.n) :
    ∃ s, s < g.n ∧ (∀ w, w < g.n → (g.nbrs w).length ≤ (g.nbrs s).length) ∧
      (∀ w, w < g.n → (g.nbrs w).length = (g.nbrs s).length → w ≤ s) ∧
      ∀ m, wfcColor g = some m → List.lookup s m = some 1 := by
  obtain ⟨start, m0, hsel, hstart, hmax, htie, hfull, hlen, hkeys, hnodup, hvals, hp3, hs1⟩ :=
    wfcColorFull_run hWF hn
  refine ⟨start, hstart, hmax, htie, ?_⟩
  intro m hm
  rw [wfcColor, hfull] at hm
  simp at hm
  rw [← hm]
  exact hs1

theorem wfc_color_seed_last_max_degree_witness : List.lookup 1 [(1, 1), (0, 2)] = some 1 := by
  obtain ⟨s, hs, hmax, htie, happ⟩ :=
    wfc_color_seed_last_max_degree pathG_WF (show 0 < pathG.n by decide)
  have hs2 : s = 0 ∨ s = 1 := by
    have hn2 : pathG.n = 2 := rfl
    omega
  rcases hs2 with rfl | rfl
  · have hle := htie 1 (by decide) (by decide)
    exact absurd hle (by decide)
  · exact happ [(1, 1), (0, 2)] (by decide)

/-- C7: under the execution invariant, every non-seed driver step selects
an uncolored vertex whose domain is nonempty and of minimal size among all
uncolored vertices (empty domains never occur, so the infinite-entropy
sentinel never wins), breaking ties by the smallest dense index, and fixes
it to the first candidate of its domain before propagating. -/
theorem driver_step_mrv {g : WGraph} (hWF : g.WF) {mc : Nat} (hmc : maxDegree g < mc)
    (fuel : Nat) {colors : CMap} {domains : DMap}
    (hinv : DInv g mc [] colors domains) (hlt : colors.length < g.n) :
    ∃ v dom, List.lookup v colors = none ∧ v < g.n ∧
      List.lookup v domains = some dom ∧ dom ≠ [] ∧
      (∀ w, w < g.n → List.lookup w colors = none →
        dom.length ≤ (domOf domains w).length) ∧
      (∀ w, w < g.n → List.lookup w colors = none →
        (domOf domains w).length = dom.length → v ≤ w) ∧
      colorLoop g (fuel + 1) mc colors domains =
        colorLoop g fuel mc (propagate g [v] (cinsert colors v (dom.headD 0)) domains).1
          (propagate g [v] (cinsert colors v (dom.headD 0)) domains).2 := by
  obtain ⟨v, dom, hunc, hv, hdom, hne, hmin, htie, hsel⟩ := driver_select hWF hmc hinv hlt
  exact ⟨v, dom, hunc, hv, hdom, hne, hmin, htie, colorLoop_step fuel mc hlt hsel hdom hne⟩

theorem driver_step_mrv_witness : List.lookup 0 (propagate triG [2] (cinsert [] 2 1)
    ((List.range triG.n).map (fun v => (v, List.range' 1 3)))).1 = none := by
  obtain ⟨v, dom, hunc, hv, hdom, hne, hmin, htie, heq⟩ :=
    driver_step_mrv triG_WF (show maxDegree triG < 3 by decide) 3
      (propagate_dinv triG_WF (show maxDegree triG < 3 by decide)
        (init_dinv triG_WF (show (1 : Nat) ≤ 3 by decide)
          (show (2 : Nat) < triG.n by decide))).1
      (by decide)
  have hv2 : v ≠ 2 := by
    intro hh
    rw [hh] at hunc
    rw [show List.lookup 2 (propagate triG [2] (cinsert [] 2 1)
      ((List.range triG.n).map (fun v => (v, List.range' 1 3)))).1 = some 1 by decide] at hunc
    exact Option.noConfusion hunc
  have hv01 : v = 0 ∨ v = 1 := by
    have hn3 : triG.n = 3 := rfl
    omega
  rcases hv01 with rfl | rfl
  · exact hunc
  · have hdom13 : dom = [2, 3] := by
      rw [show List.lookup 1 (propagate triG [2] (cinsert [] 2 1)
        ((List.range triG.n).map (fun v => (v, List.range' 1 3)))).2 = some [2, 3] by decide]
        at hdom
      exact (Option.some.inj hdom).symm
    have hle := htie 0 (by decide) (by decide) (by rw [hdom13]; decide)
    exact absurd hle (by decide)

/-- C8: `wfc_color` is deterministic: two graphs with the same vertex
enumeration and the same neighbor enumeration produce exactly the same
coloring. -/
theorem wfc_color_deterministic {g1 g2 : WGraph} (hn : g1.n = g2.n)
    (hnbrs : ∀ v, g1.nbrs v = g2.nbrs v) : wfcColor g1 = wfcColor g2 := by
  obtain ⟨n1, f1⟩ := g1
  obtain ⟨n2, f2⟩ := g2
  have hn2 : n1 = n2 := hn
  subst hn2
  have hf : f1 = f2 := funext (fun v => hnbrs v)
  subst hf
  rfl

theorem wfc_color_deterministic_witness : wfcColor triG = wfcColor triG2 :=
  wfc_color_deterministic rfl
    (fun v => match v with | 0 => rfl | 1 => rfl | 2 => rfl | _ + 3 => rfl)

/-- C9: on a consistent (well-formed) graph with at least one vertex, the
first attempt completes: the run returns with `max_colors` still equal to
`max_degree + 1` (the escalation `max_colors += 1` is the only way the
threaded value could change, so it is never executed and there are no
restarts), and in every invariant state of the execution no domain is ever
empty. -/
theorem wfc_color_first_attempt {g : WGraph} (hWF : g.WF) (hn : 0 < g.n) :
    (∃ m, wfcColorFull g = some (m, maxDegree g + 1)) ∧
      (∀ stack colors domains, DInv g (maxDegree g + 1) stack colors domains →
        ∀ v, v < g.n → domOf domains v ≠ []) := by
  constructor
  · obtain ⟨start, m, hsel, hstart, hmax, htie, hfull, hlen, hkeys, hnodup, hvals, hp3, hs1⟩ :=
      wfcColorFull_run hWF hn
    exact ⟨m, hfull⟩
  · intro stack colors domains hinv v hv
    exact dinv_dom_nonempty hWF (Nat.lt_succ_self _) hinv hv

theorem wfc_color_first_attempt_witness : wfcColorFull triG ≠ none := by
  obtain ⟨m, hm⟩ :=
    (wfc_color_first_attempt triG_WF (show 0 < triG.n by decide)).1
  intro hcontra
  rw [hm] at hcontra
  exact Option.noConfusion hcontra

/-- C10: every color in the returned mapping lies in `1 ..= max_degree + 1`,
so at most `max_degree + 1` distinct colors are used. -/
theorem wfc_color_colors_bounded {g : WGraph} (hWF : g.WF) {m : CMap}
    (hrun : wfcColor g = some m) :
    ∀ p ∈ m, 1 ≤ p.2 ∧ p.2 ≤ maxDegree g + 1 := by
  by_cases hn : 0 < g.n
  · obtain ⟨start, m0, hsel, hstart, hmax, htie, hfull, hlen, hkeys, hnodup, hvals, hp3, hs1⟩ :=
      wfcColorFull_run hWF hn
    rw [wfcColor, hfull] at hrun
    simp at hrun
    rw [← hrun]
    exact hvals
  · simp [wfcColor, wfcColorFull, maxByKeyLast, show g.n = 0 by omega] at hrun

theorem wfc_color_colors_bounded_witness : 1 ≤ 3 ∧ 3 ≤ maxDegree triG + 1 :=
  wfc_color_colors_bounded triG_WF
    (show wfcColor triG = some [(2, 1), (0, 2), (1, 3)] by decide)
    (1, 3) (by decide)
